import Mathlib

/-!
Verification development for the selective-filebrowser convergence engine.

The Go source is shallowly embedded: each Go function that a claim touches
is translated into an executable Lean definition over explicit state
(catalog rows, the two disk trees, the evaluation queue), and the claims
are settled as theorems about those definitions.
-/

namespace SelectiveFB

/-! ## Classifier (src/unnamed/part_003: State, Scenario, UIStatus) -/

/-- The seven-variable state, mirroring Go `type State struct`. -/
structure State where
  ADisk    : Bool
  ADb      : Bool
  SDisk    : Bool
  SDb      : Bool
  Selected : Bool
  ADirty   : Bool
  SDirty   : Bool
deriving DecidableEq, Repr

/-- Mirrors Go `func (s State) Scenario() int`: the fixed decision tree
mapping the seven variables to a scenario number 1..34. -/
def State.Scenario (s : State) : Nat :=
  if !s.ADb then
    -- A_db=0: scenarios 1-4
    if !s.ADisk && !s.SDisk then 1
    else if s.ADisk && !s.SDisk then 2
    else if !s.ADisk && s.SDisk then 3
    else 4
  else if !s.ADisk then
    -- A_db=1, A_disk=0: scenarios 5-14
    if !s.SDisk then
      if !s.SDb then
        if !s.Selected then 5 else 6
      else
        if !s.Selected then 7 else 8
    else
      if !s.SDb then
        (if !s.Selected then 9 else 10)
      else if !s.Selected && !s.SDirty then 11
      else if !s.Selected && s.SDirty then 12
      else if s.Selected && !s.SDirty then 13
      else 14
  else
    -- A_disk=1, A_db=1
    if !s.SDisk && !s.SDb then
      if !s.Selected && !s.ADirty then 15
      else if !s.Selected && s.ADirty then 16
      else if s.Selected && !s.ADirty then 17
      else 18
    else if !s.SDisk && s.SDb then
      if !s.Selected && !s.ADirty then 19
      else if !s.Selected && s.ADirty then 20
      else if s.Selected && !s.ADirty then 21
      else 22
    else if s.SDisk && !s.SDb then
      if !s.Selected && !s.ADirty then 23
      else if !s.Selected && s.ADirty then 24
      else if s.Selected && !s.ADirty then 25
      else 26
    else
      -- Group F: S_disk=1, S_db=1
      if !s.Selected then
        if !s.ADirty && !s.SDirty then 27
        else if !s.ADirty && s.SDirty then 28
        else if s.ADirty && !s.SDirty then 29
        else 30
      else
        if !s.ADirty && !s.SDirty then 31
        else if !s.ADirty && s.SDirty then 32
        else if s.ADirty && !s.SDirty then 33
        else 34

/-- Mirrors Go `func (s State) UIStatus() string`: the case order of the
Go `switch` is preserved exactly. -/
def State.UIStatus (s : State) : String :=
  let sc := s.Scenario
  if sc == 1 then ""
  else if sc == 15 then "archived"
  else if sc == 31 then "synced"
  else if sc == 17 || sc == 18 then "syncing"
  else if sc == 27 || sc == 28 || sc == 29 then "removing"
  else if sc == 32 || sc == 33 then "updating"
  else if sc == 30 || sc == 34 then "conflict"
  else if 9 ≤ sc && sc ≤ 14 then "recovering"
  else if 5 ≤ sc && sc ≤ 8 then "lost"
  else if 2 ≤ sc && sc ≤ 4 then "untracked"
  else if 19 ≤ sc && sc ≤ 26 then "repairing"
  else if sc == 16 then "archived"
  else "unknown"

/-- The label the spec's table assigns to a scenario number (claim C2's
expected mapping, written from the spec's words for comparison). -/
def specLabel (sc : Nat) : String :=
  if sc == 1 then ""
  else if 2 ≤ sc && sc ≤ 4 then "untracked"
  else if 5 ≤ sc && sc ≤ 8 then "lost"
  else if 9 ≤ sc && sc ≤ 14 then "recovering"
  else if sc == 15 || sc == 16 then "archived"
  else if sc == 17 || sc == 18 then "syncing"
  else if sc == 19 || sc == 20 || sc == 21 || sc == 22 || sc == 23 || sc == 25 || sc == 26 then "repairing"
  else if sc == 24 || sc == 30 || sc == 34 then "conflict"
  else if 27 ≤ sc && sc ≤ 29 then "removing"
  else if sc == 31 then "synced"
  else if sc == 32 || sc == 33 then "updating"
  else "unknown"

/-! ## Evaluation queue (src/sync/queue.go, two-tier version) -/

/-- Mirrors Go `type EvalQueue struct`: normal membership set + FIFO,
priority membership set + FIFO.  The Go maps become `Finset String`;
the slices become `List String`.  (The mutex and notify channel order
calls sequentially, which the functional model reflects directly.) -/
structure EvalQueue where
  set     : Finset String
  order   : List String
  hiSet   : Finset String
  hiOrder : List String
deriving DecidableEq

/-- Mirrors Go `NewEvalQueue`. -/
def EvalQueue.empty : EvalQueue := ⟨∅, [], ∅, []⟩

/-- Mirrors Go `EvalQueue.Push`: no-op if the path is in either tier,
otherwise append to the normal FIFO and membership set. -/
def EvalQueue.Push (q : EvalQueue) (p : String) : EvalQueue :=
  if p ∈ q.set then q
  else if p ∈ q.hiSet then q
  else { q with set := insert p q.set, order := q.order ++ [p] }

/-- Mirrors Go `EvalQueue.PushPriority`: no-op if already in the priority
tier; otherwise append to the priority FIFO and remove the path's normal
membership record (the stale normal FIFO slot is left in place). -/
def EvalQueue.PushPriority (q : EvalQueue) (p : String) : EvalQueue :=
  if p ∈ q.hiSet then q
  else { q with hiSet := insert p q.hiSet, hiOrder := q.hiOrder ++ [p],
                set := q.set.erase p }

/-- Mirrors Go `EvalQueue.PushMany` (per-path logic identical to `Push`). -/
def EvalQueue.PushMany (q : EvalQueue) (ps : List String) : EvalQueue :=
  ps.foldl EvalQueue.Push q

/-- The normal-tier drain loop inside Go `EvalQueue.Pop`: take slots off
the front, skipping entries whose path is no longer in the membership set. -/
def popNormal : List String → Finset String → Option (String × List String × Finset String)
  | [], _ => none
  | p :: rest, s => if p ∈ s then some (p, rest, s.erase p) else popNormal rest s

/-- Mirrors Go `EvalQueue.Pop` (non-blocking step: `none` when empty,
where the Go code would block). Priority FIFO is drained first. -/
def EvalQueue.Pop (q : EvalQueue) : Option (String × EvalQueue) :=
  match q.hiOrder with
  | p :: rest =>
      some (p, { q with hiOrder := rest, hiSet := q.hiSet.erase p,
                        set := q.set.erase p })
  | [] =>
      match popNormal q.order q.set with
      | some (p, rest, s') => some (p, { q with order := rest, set := s' })
      | none => none

/-- Mirrors Go `EvalQueue.Has`: membership in either tier. -/
def EvalQueue.Has (q : EvalQueue) (p : String) : Prop :=
  p ∈ q.hiSet ∨ p ∈ q.set

instance (q : EvalQueue) (p : String) : Decidable (q.Has p) := by
  unfold EvalQueue.Has; infer_instance

/-- Mirrors Go `EvalQueue.Len`: priority FIFO length + normal set size. -/
def EvalQueue.Len (q : EvalQueue) : Nat :=
  q.hiOrder.length + q.set.card

/-- Mirrors Go `EvalQueue.Drain`: returns priority FIFO ++ normal FIFO
and resets everything. -/
def EvalQueue.Drain (q : EvalQueue) : List String × EvalQueue :=
  (q.hiOrder ++ q.order, EvalQueue.empty)

/-- Well-formedness of a queue state: the priority FIFO is duplicate-free
and agrees with the priority membership set, every normal member has a
FIFO slot, and the two membership sets are disjoint. -/
def EvalQueue.WF (q : EvalQueue) : Prop :=
  q.hiOrder.Nodup ∧ q.hiSet = q.hiOrder.toFinset ∧
  q.set ⊆ q.order.toFinset ∧ ∀ p ∈ q.hiSet, p ∉ q.set

instance (q : EvalQueue) : Decidable q.WF := by
  unfold EvalQueue.WF; infer_instance

/-- Queue states reachable from the empty queue by the public operations. -/
inductive EvalQueue.Reachable : EvalQueue → Prop
  | empty : EvalQueue.Reachable EvalQueue.empty
  | push {q p} : EvalQueue.Reachable q → EvalQueue.Reachable (q.Push p)
  | pushPriority {q p} : EvalQueue.Reachable q → EvalQueue.Reachable (q.PushPriority p)
  | pushMany {q ps} : EvalQueue.Reachable q → EvalQueue.Reachable (q.PushMany ps)
  | pop {q p q'} : EvalQueue.Reachable q → q.Pop = some (p, q') → EvalQueue.Reachable q'
  | drain {q} : EvalQueue.Reachable q → EvalQueue.Reachable q.Drain.2

/-! ## SafeCopy (src/sync/fileops.go, SafeCopy) -/

/-- A regular file as SafeCopy observes it: content bytes and an mtime in
nanoseconds (Go `ModTime().UnixNano()`). -/
structure DFile where
  bytes : List Nat
  mtime : Int
deriving DecidableEq, Repr

/-- The three paths SafeCopy touches: `src`, `dst` and `dst + ".sync-tmp"`.
`none` means the path does not exist. -/
structure CopyFS where
  src : Option DFile
  dst : Option DFile
  tmp : Option DFile
deriving DecidableEq, Repr

/-- Error outcomes of SafeCopy representable in the model: initial stat
failure, context cancellation, re-queue abort (Go `hasQueued()`), a chunk
write failure, and the mtime-changed check (`ErrSourceModified`). -/
inductive CopyErr
  | statSrc | cancelled | requeued | writeErr | sourceModified
deriving DecidableEq, Repr

/-- External behaviour at one iteration of SafeCopy's chunk loop:
whether the ambient context is cancelled, whether the path was re-queued,
an optional concurrent in-place modification of `src` (applied before
this iteration's checks), and whether the chunk write fails. -/
structure CopyEv where
  cancelled : Bool
  requeued  : Bool
  mod       : Option DFile
  writeFail : Bool
deriving DecidableEq, Repr

/-- Go `copyChunkSize = 256 * 1024`. -/
def chunkSize : Nat := 256 * 1024

/-- The chunk-copy loop of SafeCopy.  One `CopyEv` is consumed per
iteration; per iteration the order matches the Go code: cancellation
check, re-queue check, chunk read (empty read = EOF = clean break),
chunk write.  When the event schedule is exhausted, no further
interference occurs and the loop deterministically appends the rest of
the source, so the `[]` case summarises the remaining quiet iterations.
Returns (final src file, tmp contents, error). -/
def copyLoop : List CopyEv → DFile → Nat → List Nat → DFile × List Nat × Option CopyErr
  | [], cur, pos, acc => (cur, acc ++ cur.bytes.drop pos, none)
  | ev :: rest, cur, pos, acc =>
    if ev.cancelled then (ev.mod.getD cur, acc, some .cancelled)
    else if ev.requeued then (ev.mod.getD cur, acc, some .requeued)
    else if (((ev.mod.getD cur).bytes.drop pos).take chunkSize).isEmpty then
      (ev.mod.getD cur, acc, none)
    else if ev.writeFail then (ev.mod.getD cur, acc, some .writeErr)
    else copyLoop rest (ev.mod.getD cur)
      (pos + (((ev.mod.getD cur).bytes.drop pos).take chunkSize).length)
      (acc ++ ((ev.mod.getD cur).bytes.drop pos).take chunkSize)

/-- The part of SafeCopy after the initial stat succeeded with `src0`:
create the tmp file, run the chunk loop, on error unlink tmp, re-stat
src and fail with `sourceModified` if the mtime changed, set tmp's mtime
to src's, atomically rename tmp to dst. -/
def safeCopyAux (fs : CopyFS) (src0 : DFile) (evs : List CopyEv) :
    CopyFS × Option CopyErr :=
  match copyLoop evs src0 0 [] with
  | (srcFin, _, some e) => ({ fs with src := some srcFin, tmp := none }, some e)
  | (srcFin, acc, none) =>
    if src0.mtime ≠ srcFin.mtime then
      ({ fs with src := some srcFin, tmp := none }, some .sourceModified)
    else
      ({ fs with src := some srcFin,
                 dst := some ⟨acc, src0.mtime⟩, tmp := none }, none)

/-- Mirrors Go `SafeCopy(ctx, src, dst, hasQueued)`: stat src (failure if
absent), then the copy protocol of `safeCopyAux`.  Concurrent
modifications of `src` are in-place, so re-stat always succeeds in the
model. -/
def SafeCopy (fs : CopyFS) (evs : List CopyEv) : CopyFS × Option CopyErr :=
  match fs.src with
  | none => (fs, some .statSrc)
  | some src0 => safeCopyAux fs src0 evs

/-! ## Catalog (src/sync/store.go over the db.go schema-v3 tables) -/

/-- One row of the `entries` table. -/
structure Entry where
  inode : Nat
  parentIno : Nat
  name : List Char
  type : List Char
  size : Option Int
  mtime : Int
  selected : Bool
deriving DecidableEq, Repr

/-- One row of the `spaces_view` table. -/
structure SpacesView where
  entryIno : Nat
  syncedMtime : Int
  checkedAt : Int
deriving DecidableEq, Repr

/-- The catalog.  Schema v3 declares `spaces_view.entry_ino REFERENCES
entries(inode) ON UPDATE CASCADE ON DELETE CASCADE`, so entry deletions
and in-place inode updates cascade into `spaces_view`. -/
structure Catalog where
  entries : List Entry
  views : List SpacesView
deriving DecidableEq, Repr

/-- `"dir"` as a char list (the Entry type of directories). -/
def dirT : List Char := "dir".toList

def getEntry (c : Catalog) (ino : Nat) : Option Entry :=
  c.entries.find? (fun e => e.inode == ino)

def getEntryByPath (c : Catalog) (parent : Nat) (name : List Char) : Option Entry :=
  c.entries.find? (fun e => e.parentIno == parent && e.name == name)

def getSpacesView (c : Catalog) (ino : Nat) : Option SpacesView :=
  c.views.find? (fun v => v.entryIno == ino)

/-- The recursive CTE over `parent_ino` links: starting from `acc`, add
inodes of rows whose parent is already collected, for at most `fuel`
rounds (the table length always suffices). -/
def subtreeClosure (entries : List Entry) : Nat → List Nat → List Nat
  | 0, acc => acc
  | fuel + 1, acc =>
    let next := (entries.filter (fun e =>
      acc.contains e.parentIno && !acc.contains e.inode)).map (·.inode)
    if next.isEmpty then acc else subtreeClosure entries fuel (acc ++ next)

/-- Statement 1 of Go `Store.UpsertEntry`: delete (with the subtree CTE)
any row that has the new inode at a different `(parent_ino, name)`;
`spaces_view` rows of deleted entries go away via ON DELETE CASCADE. -/
def upsertCleanup (c : Catalog) (e : Entry) : Catalog :=
  let doomed := subtreeClosure c.entries c.entries.length
    ((c.entries.filter (fun r =>
      r.inode == e.inode && !(r.parentIno == e.parentIno && r.name == e.name))).map
      (·.inode))
  ⟨c.entries.filter (fun r => !doomed.contains r.inode),
   c.views.filter (fun v => !doomed.contains v.entryIno)⟩

/-- Statement 2 of Go `Store.UpsertEntry`:
`INSERT ... ON CONFLICT(parent_ino, name) DO UPDATE SET inode, type,
size, mtime` — the conflicting row is updated in place (its `selected`
is not updated), and ON UPDATE CASCADE retargets `spaces_view` rows that
referenced the overwritten inode. -/
def upsertInsert (c : Catalog) (e : Entry) : Catalog :=
  match c.entries.find? (fun r => r.parentIno == e.parentIno && r.name == e.name) with
  | some old =>
    ⟨c.entries.map (fun r =>
        if r.parentIno == e.parentIno && r.name == e.name then
          { r with inode := e.inode, type := e.type, size := e.size, mtime := e.mtime }
        else r),
     c.views.map (fun v =>
        if v.entryIno == old.inode then { v with entryIno := e.inode } else v)⟩
  | none => ⟨c.entries ++ [e], c.views⟩

/-- Mirrors Go `Store.UpsertEntry` (src/sync/store.go lines 18-53). -/
def Store.UpsertEntry (c : Catalog) (e : Entry) : Catalog :=
  upsertInsert (upsertCleanup c e) e

/-- Mirrors Go `Store.UpdateEntryName`. -/
def Store.UpdateEntryName (c : Catalog) (ino : Nat) (newName : List Char) : Catalog :=
  { c with entries := c.entries.map (fun e =>
      if e.inode == ino then { e with name := newName } else e) }

/-- Mirrors Go `Store.UpdateEntryMtime`. -/
def Store.UpdateEntryMtime (c : Catalog) (ino : Nat) (mtime : Int)
    (size : Option Int) : Catalog :=
  { c with entries := c.entries.map (fun e =>
      if e.inode == ino then { e with mtime := mtime, size := size } else e) }

/-- Mirrors Go `Store.DeleteEntry` (`spaces_view` rows cascade). -/
def Store.DeleteEntry (c : Catalog) (ino : Nat) : Catalog :=
  ⟨c.entries.filter (fun e => !(e.inode == ino)),
   c.views.filter (fun v => !(v.entryIno == ino))⟩

/-- Mirrors Go `Store.UpsertSpacesView`. -/
def Store.UpsertSpacesView (c : Catalog) (sv : SpacesView) : Catalog :=
  if (c.views.find? (fun v => v.entryIno == sv.entryIno)).isSome then
    { c with views := c.views.map (fun v =>
        if v.entryIno == sv.entryIno then
          { v with syncedMtime := sv.syncedMtime, checkedAt := sv.checkedAt }
        else v) }
  else
    { c with views := c.views ++ [sv] }

/-- Mirrors Go `Store.DeleteSpacesView`. -/
def Store.DeleteSpacesView (c : Catalog) (ino : Nat) : Catalog :=
  { c with views := c.views.filter (fun v => !(v.entryIno == ino)) }

/-- Mirrors Go `setSelectedRecursive`: for each direct child, set its
`selected` flag (an UPDATE keyed by the child's inode), and recurse when
the child is a directory.  Fuel-bounded (tree depth is at most the table
length). -/
def setSelectedRec : Nat → List Entry → Nat → Bool → List Entry
  | 0, entries, _, _ => entries
  | fuel + 1, entries, parentIno, flag =>
    (entries.filter (fun e => e.parentIno == parentIno)).foldl (fun acc child =>
      if child.type == dirT then
        setSelectedRec fuel (acc.map (fun e =>
          if e.inode == child.inode then { e with selected := flag } else e))
          child.inode flag
      else acc.map (fun e =>
        if e.inode == child.inode then { e with selected := flag } else e)) entries

/-- Mirrors Go `Store.SetSelected`: one transaction that, for each given
inode, updates its row and then recursively updates its descendants. -/
def Store.SetSelected (c : Catalog) (inos : List Nat) (flag : Bool) : Catalog :=
  { c with entries := inos.foldl (fun acc ino =>
      setSelectedRec acc.length (acc.map (fun e =>
        if e.inode == ino then { e with selected := flag } else e)) ino flag) c.entries }

/-- Mirrors the walk of Go `lookupDB` (pipeline.go): follow the path
components from the virtual root (parent inode 0) through
`GetEntryByPath`; any missing component means "not in DB". -/
def lookupFrom (c : Catalog) : Nat → List (List Char) → Option Entry
  | _, [] => none
  | parent, part :: rest =>
    match getEntryByPath c parent part with
    | none => none
    | some e => if rest.isEmpty then some e else lookupFrom c e.inode rest

/-- The selected-alignment step of `rollbackState`: if Spaces exists and
the entry is unselected, (recursively) select it; if Spaces is absent
and it is selected, (recursively) deselect it. -/
def rollbackSel (c : Catalog) (spacesExists : Bool) (entry : Entry) : Catalog :=
  if spacesExists && !entry.selected then
    Store.SetSelected c [entry.inode] true
  else if !spacesExists && entry.selected then
    Store.SetSelected c [entry.inode] false
  else c

/-- Mirrors Go `Daemon.rollbackState` (src/unnamed/part_005): align the
catalog with Spaces disk reality after a pipeline failure.
`spacesMtime` is the observed Spaces stat result (`none` = absent).
After the selected-alignment, the SpacesView row is created from the
current mtime when Spaces exists without one, and deleted when Spaces is
absent but the row is present. -/
def rollbackState (c : Catalog) (spacesMtime : Option Int) (now : Int)
    (path : List (List Char)) : Catalog :=
  match lookupFrom c 0 path with
  | none => c
  | some entry =>
    match spacesMtime with
    | some m =>
      match getSpacesView c entry.inode with
      | none => Store.UpsertSpacesView (rollbackSel c true entry) ⟨entry.inode, m, now⟩
      | some _ => rollbackSel c true entry
    | none =>
      match getSpacesView c entry.inode with
      | some v => Store.DeleteSpacesView (rollbackSel c false entry) v.entryIno
      | none => rollbackSel c false entry

/-- `updSet W flag l`: the rows of `l` whose inode is in `W`, with
`selected` set to `flag` (the shape of every entries-table write that
`SetSelected` performs). -/
def updSet (W : List Nat) (flag : Bool) (l : List Entry) : List Entry :=
  l.map (fun e => if W.contains e.inode then { e with selected := flag } else e)

/-- Reachability through the catalog's `parent_ino` links, recursing only
through directory rows — the set of parents `setSelectedRecursive` can
visit below `root`. -/
inductive dirReach (l : List Entry) (root : Nat) : Nat → Prop
  | base : dirReach l root root
  | step (r : Entry) : r ∈ l → dirReach l root r.parentIno → r.type = dirT →
      dirReach l root r.inode

/-! ## File names: conflict naming and the watcher skip list
(src/sync/fileops.go ConflictName, src/sync/watcher.go Start) -/

/-- Go `strings.HasPrefix` over explicit character lists. -/
def listStartsWith : List Char → List Char → Bool
  | _, [] => true
  | [], _ :: _ => false
  | a :: as, b :: bs => a == b && listStartsWith as bs

/-- Go `strings.Contains pat` over explicit character lists:
`containsSub pat l` is true iff `pat` occurs contiguously in `l`. -/
def containsSub (pat : List Char) : List Char → Bool
  | [] => listStartsWith [] pat
  | c :: rest => listStartsWith (c :: rest) pat || containsSub pat rest

/-- Go `filepath.Ext`: the suffix starting at the final dot (empty when
there is no dot). -/
def extOf : List Char → List Char
  | [] => []
  | c :: rest =>
    let e := extOf rest
    if e.isEmpty then (if c == '.' then c :: rest else []) else e

/-- The stem of a basename: everything before `extOf`. -/
def stemOf (name : List Char) : List Char :=
  name.take (name.length - (extOf name).length)

/-- The fragment used by the repo's own conflict filenames
(`fmt.Sprintf("%s_conflict-%d%s", ...)` in ConflictName/RenameConflict). -/
def conflictFragment : List Char := "_conflict-".toList

/-- The fragment the watcher (and scanner) actually skip. -/
def syncConflictFragment : List Char := ".sync-conflict-".toList

/-- The candidate name `ConflictName` builds for index `i`:
`<stem>_conflict-<i><ext>`. -/
def conflictCandidate (name : List Char) (i : Nat) : List Char :=
  stemOf name ++ conflictFragment ++ Nat.toDigits 10 i ++ extOf name

/-- Mirrors the loop of Go `ConflictName`: the smallest `i ≥ start` whose
candidate is not among the directory's occupied names.  Fuel-bounded
(the Go loop is unbounded; `occupied.length + 1` tries always suffice in
practice). -/
def conflictSearch (occupied : List (List Char)) (name : List Char) :
    Nat → Nat → Option (Nat × List Char)
  | _, 0 => none
  | i, fuel + 1 =>
    let cand := conflictCandidate name i
    if occupied.contains cand then conflictSearch occupied name (i + 1) fuel
    else some (i, cand)

/-- Mirrors Go `ConflictName(originalPath)` given the set of occupied
sibling basenames. -/
def ConflictName (occupied : List (List Char)) (name : List Char) :
    Option (Nat × List Char) :=
  conflictSearch occupied name 1 (occupied.length + 1)

/-- The watcher's skip decision (src/sync/watcher.go line 86): skip iff
the basename starts with "." or contains ".sync-conflict-". -/
def watcherSkip (base : List Char) : Bool :=
  listStartsWith base ['.'] || containsSub syncConflictFragment base

/-- One step of the watcher event loop: an event whose basename passes
the skip check joins the debounce pending set (which is later flushed to
the queue via PushMany); a skipped event is dropped. -/
def watcherProcessEvent (pending : Finset (List Char)) (base : List Char) :
    Finset (List Char) :=
  if watcherSkip base then pending else insert base pending

/-! ## World and pipeline (src/sync/pipeline.go) -/

/-- A relative path: its components. -/
abbrev RPath := List (List Char)

/-- One disk node as the pipeline observes it through `stat`: directory
flag, content bytes (empty for directories), mtime (ns), inode. -/
structure DNode where
  isDir : Bool
  bytes : List Nat
  mtime : Int
  ino : Nat
deriving DecidableEq, Repr

/-- A disk tree keyed by relative path. -/
abbrev Tree := List (RPath × DNode)

/-- Mirrors Go `statFile` on one tree: `none` when the path is absent. -/
def statT (t : Tree) (p : RPath) : Option DNode :=
  (t.find? (fun x => x.1 == p)).map (fun x => x.2)

/-- Remove a path from a tree (`os.Remove` / the source side of a rename). -/
def treeRemove (t : Tree) (p : RPath) : Tree :=
  t.filter (fun x => !(x.1 == p))

/-- Create-or-replace a path in a tree (the `stat`-observable effect of a
write or of `os.Rename`'s destination). -/
def treeInsert (t : Tree) (p : RPath) (n : DNode) : Tree :=
  treeRemove t p ++ [(p, n)]

/-- The whole observable state: both disk trees, the catalog, the trash,
an inode allocator for freshly created files, and the current clock. -/
structure World where
  archives : Tree
  spaces : Tree
  cat : Catalog
  trash : Tree
  nextIno : Nat
  now : Int
deriving DecidableEq, Repr

/-- Pipeline error kinds (the model's abstraction of the Go `error`s each
stage can return). -/
inductive PErr
  | dbLookup | copyFail | statFail | parentNotFound | conflictExhausted
deriving DecidableEq, Repr

/-- The effect of a successful `SafeCopy(src→dst)` on the trees, per the
verified contract (`safeCopy_contract`): `dst` gets the source's bytes
and mtime; the rename of the fresh tmp file gives it a fresh inode.
Fails when the source is absent or a directory (the chunk read would
fail with EISDIR). -/
def diskSafeCopy (src dst : Tree) (p : RPath) (fresh : Nat) : Option Tree :=
  match statT src p with
  | none => none
  | some n => if n.isDir then none else
      some (treeInsert dst p ⟨false, n.bytes, n.mtime, fresh⟩)

/-- Mirrors Go `ComputeState`. -/
def ComputeStateM (entry : Option Entry) (sv : Option SpacesView)
    (archiveMtime spacesMtime : Option Int) : State :=
  { ADisk := archiveMtime.isSome
    ADb := entry.isSome
    SDisk := spacesMtime.isSome
    SDb := sv.isSome
    Selected := match entry with | some e => e.selected | none => false
    ADirty := match entry, archiveMtime with
      | some e, some m => decide (m ≠ e.mtime)
      | _, _ => false
    SDirty := match sv, spacesMtime with
      | some v, some m => decide (m ≠ v.syncedMtime)
      | _, _ => false }

/-- Mirrors Go `lookupDB`: the Entry found by the path walk, and its
SpacesView row. -/
def lookupDBW (c : Catalog) (p : RPath) : Option Entry × Option SpacesView :=
  match lookupFrom c 0 p with
  | none => (none, none)
  | some e => (some e, getSpacesView c e.inode)

/-- One state gathering of the pipeline: DB rows plus disk stats. -/
def gatherState (w : World) (p : RPath) :
    Option Entry × Option SpacesView × State :=
  match lookupDBW w.cat p with
  | (entry, sv) =>
    (entry, sv, ComputeStateM entry sv
      ((statT w.archives p).map (fun n => n.mtime))
      ((statT w.spaces p).map (fun n => n.mtime)))

/-- Mirrors Go `resolveParentInoFromDB`'s component walk (virtual root =
0); a missing parent component is an error. -/
def walkParent (c : Catalog) : Nat → List (List Char) → Except PErr Nat
  | acc, [] => .ok acc
  | acc, part :: rest =>
    match getEntryByPath c acc part with
    | none => .error .parentNotFound
    | some e => walkParent c e.inode rest

/-- Mirrors Go `ClassifyType` (src/sync/scanner.go).  `mime.TypeByExtension`
is environment-dependent, so the model uses the code's own
`classifyByExtension` fallback table, which agrees with the mime path on
these extensions. -/
def ClassifyTypeM (name : List Char) (isDir : Bool) : List Char :=
  if isDir then dirT
  else
    let ext := (extOf name).map Char.toLower
    if ext.isEmpty then "blob".toList
    else if [".mp4", ".mkv", ".avi", ".mov", ".wmv", ".flv", ".webm",
        ".m4v"].map String.toList |>.contains ext then "video".toList
    else if [".mp3", ".wav", ".flac", ".aac", ".ogg", ".wma", ".m4a",
        ".opus"].map String.toList |>.contains ext then "audio".toList
    else if [".jpg", ".jpeg", ".png", ".gif", ".bmp", ".svg", ".webp",
        ".tiff", ".ico"].map String.toList |>.contains ext then "image".toList
    else if ext == ".pdf".toList then "pdf".toList
    else if [".txt", ".md", ".json", ".xml", ".csv", ".yaml", ".yml",
        ".toml", ".go", ".py", ".js", ".ts", ".html", ".css", ".sh",
        ".bash", ".c", ".h", ".cpp", ".java", ".rs", ".rb", ".php",
        ".vue", ".sql"].map String.toList |>.contains ext then "text".toList
    else "blob".toList

/-- Mirrors Go `p0`: Archives recovery when `A_disk = 0`.  If Spaces has
the file, SafeCopy it back and refresh the entry's mtime/size; if both
disks are gone, delete the SpacesView (if any) and then the entry. -/
def p0M (w : World) (entry : Option Entry) (sv : Option SpacesView)
    (p : RPath) (st : State) : Except PErr World :=
  if st.SDisk then
    match diskSafeCopy w.spaces w.archives p w.nextIno with
    | none => .error .copyFail
    | some a1 =>
      match entry with
      | some e =>
        match statT a1 p with
        | some n =>
          .ok { w with
            archives := a1
            nextIno := w.nextIno + 1
            cat := Store.UpdateEntryMtime w.cat e.inode n.mtime
              (some (n.bytes.length : Int)) }
        | none => .ok { w with archives := a1, nextIno := w.nextIno + 1 }
      | none => .ok { w with archives := a1, nextIno := w.nextIno + 1 }
  else
    match entry with
    | some e =>
      .ok { w with
        cat := Store.DeleteEntry
          (match sv with
           | some v => Store.DeleteSpacesView w.cat v.entryIno
           | none => w.cat) e.inode }
    | none => .ok w

/-- Mirrors Go `p1`: DB registration when `A_db = 0 ∧ A_disk = 1`.  The
inserted entry's `selected` is the freshly observed `S_disk`. -/
def p1M (w : World) (p : RPath) (st : State) : Except PErr World :=
  match statT w.archives p with
  | none => .ok w
  | some n =>
    match walkParent w.cat 0 p.dropLast with
    | .error e => .error e
    | .ok parentIno =>
      .ok { w with
        cat := Store.UpsertEntry w.cat
          ⟨n.ino, parentIno, p.getLastD [],
           if n.isDir then dirT else ClassifyTypeM (p.getLastD []) false,
           if n.isDir then none else some (n.bytes.length : Int),
           n.mtime, st.SDisk⟩ }

/-- The sibling basenames of a directory in a tree (what the `os.Stat`
probes of `ConflictName` can find). -/
def occupiedNames (t : Tree) (dirParts : RPath) : List (List Char) :=
  (t.filter (fun x => x.1.dropLast == dirParts && !x.1.isEmpty)).map
    (fun x => x.1.getLastD [])

/-- Mirrors Go `updateEntryFromDisk`: refresh entry mtime/size from the
Archives stat and the SpacesView from the Spaces stat. -/
def updateEntryFromDiskM (w : World) (entry : Entry) (sv : Option SpacesView)
    (p : RPath) : Except PErr World :=
  match statT w.archives p with
  | none => .error .statFail
  | some aNode =>
    match sv with
    | some v =>
      match statT w.spaces p with
      | some sNode =>
        .ok { w with
          cat := Store.UpsertSpacesView
            (Store.UpdateEntryMtime w.cat entry.inode aNode.mtime
              (some (aNode.bytes.length : Int)))
            ⟨v.entryIno, sNode.mtime, w.now⟩ }
      | none =>
        .ok { w with
          cat := Store.UpdateEntryMtime w.cat entry.inode
            aNode.mtime (some (aNode.bytes.length : Int)) }
    | none =>
      .ok { w with
        cat := Store.UpdateEntryMtime w.cat entry.inode
          aNode.mtime (some (aNode.bytes.length : Int)) }

/-- Mirrors Go `p2`: change propagation when `A_dirty ∨ S_dirty`.
Both dirty = conflict: rename the DB row to the next free conflict name,
rename the Archives file, SafeCopy Spaces→Archives into the original
name (fresh inode), register the new file as a new Entry with
`selected = true`, and retarget the SpacesView to the new inode with the
current Spaces mtime. -/
def p2M (w : World) (entry : Entry) (sv : Option SpacesView) (p : RPath)
    (st : State) : Except PErr World :=
  if st.ADirty && st.SDirty then
    match ConflictName (occupiedNames w.archives p.dropLast) (p.getLastD []) with
    | none => .error .conflictExhausted
    | some (_, cName) =>
      match statT w.archives p with
      | none => .error .statFail
      | some aNode =>
        match diskSafeCopy w.spaces
            (treeInsert (treeRemove w.archives p) (p.dropLast ++ [cName]) aNode)
            p w.nextIno with
        | none => .error .copyFail
        | some a2 =>
          match statT a2 p with
          | none => .error .statFail
          | some newNode =>
            match sv with
            | some _ =>
              match statT w.spaces p with
              | some sNode =>
                .ok { w with
                  archives := a2
                  nextIno := w.nextIno + 1
                  cat := Store.UpsertSpacesView
                    (Store.UpsertEntry
                      (Store.UpdateEntryName w.cat entry.inode cName)
                      ⟨newNode.ino, entry.parentIno, entry.name, entry.type,
                       some (newNode.bytes.length : Int), newNode.mtime, true⟩)
                    ⟨newNode.ino, sNode.mtime, w.now⟩ }
              | none =>
                .ok { w with
                  archives := a2
                  nextIno := w.nextIno + 1
                  cat := Store.UpsertEntry
                    (Store.UpdateEntryName w.cat entry.inode cName)
                    ⟨newNode.ino, entry.parentIno, entry.name, entry.type,
                     some (newNode.bytes.length : Int), newNode.mtime, true⟩ }
            | none =>
              .ok { w with
                archives := a2
                nextIno := w.nextIno + 1
                cat := Store.UpsertEntry
                  (Store.UpdateEntryName w.cat entry.inode cName)
                  ⟨newNode.ino, entry.parentIno, entry.name, entry.type,
                   some (newNode.bytes.length : Int), newNode.mtime, true⟩ }
  else if st.ADirty then
    match statT w.archives p with
    | none => .error .statFail
    | some aNode =>
      if entry.selected && st.SDisk then
        match diskSafeCopy w.archives w.spaces p w.nextIno with
        | none => .error .copyFail
        | some s1 =>
          match sv with
          | some v =>
            match statT s1 p with
            | some spNode =>
              .ok { w with
                spaces := s1
                nextIno := w.nextIno + 1
                cat := Store.UpsertSpacesView
                  (Store.UpdateEntryMtime w.cat entry.inode aNode.mtime
                    (some (aNode.bytes.length : Int)))
                  ⟨v.entryIno, spNode.mtime, w.now⟩ }
            | none =>
              .ok { w with
                spaces := s1
                nextIno := w.nextIno + 1
                cat := Store.UpdateEntryMtime w.cat entry.inode aNode.mtime
                  (some (aNode.bytes.length : Int)) }
          | none =>
            .ok { w with
              spaces := s1
              nextIno := w.nextIno + 1
              cat := Store.UpdateEntryMtime w.cat entry.inode aNode.mtime
                (some (aNode.bytes.length : Int)) }
      else
        .ok { w with
          cat := Store.UpdateEntryMtime w.cat entry.inode
            aNode.mtime (some (aNode.bytes.length : Int)) }
  else
    match diskSafeCopy w.spaces w.archives p w.nextIno with
    | none => .error .copyFail
    | some a1 =>
      updateEntryFromDiskM { w with archives := a1, nextIno := w.nextIno + 1 }
        entry sv p

/-- Mirrors Go `SoftDelete`'s observable effect for the pipeline: the
subtree under `p` moves from Spaces into the trash.  (The dated
directory and collision-renaming inside the trash are not modelled.) -/
def SoftDeleteM (w : World) (p : RPath) : World :=
  { w with
    spaces := w.spaces.filter (fun x => !(p.isPrefixOf x.1))
    trash := w.trash ++ w.spaces.filter (fun x => p.isPrefixOf x.1) }

/-- Mirrors Go `p3`: goal realization when `selected ≠ S_disk`. -/
def p3M (w : World) (entry : Entry) (p : RPath) (st : State) :
    Except PErr World :=
  if entry.selected && !st.SDisk then
    match getEntry w.cat entry.inode with
    | none => .ok w
    | some fresh =>
      if !fresh.selected then .ok w
      else if entry.type == dirT then
        .ok { w with
          spaces := treeInsert w.spaces p ⟨true, [], w.now, w.nextIno⟩
          nextIno := w.nextIno + 1
          cat := Store.UpsertSpacesView w.cat ⟨entry.inode, w.now, w.now⟩ }
      else
        match diskSafeCopy w.archives w.spaces p w.nextIno with
        | none => .error .copyFail
        | some s1 =>
          match statT s1 p with
          | some spNode =>
            .ok { w with
              spaces := s1
              nextIno := w.nextIno + 1
              cat := Store.UpsertSpacesView w.cat
                ⟨entry.inode, spNode.mtime, w.now⟩ }
          | none => .ok { w with spaces := s1, nextIno := w.nextIno + 1 }
  else if !entry.selected && st.SDisk then
    match statT w.spaces p with
    | none => .error .statFail
    | some _ => .ok (SoftDeleteM w p)
  else .ok w

/-- Mirrors Go `p4`: DB consistency when `S_db ≠ S_disk`. -/
def p4M (w : World) (entry : Option Entry) (sv : Option SpacesView)
    (p : RPath) (st : State) : Except PErr World :=
  if st.SDisk && !st.SDb then
    match entry with
    | none => .ok w
    | some e =>
      match statT w.spaces p with
      | none => .error .statFail
      | some spNode =>
        .ok { w with
          cat := Store.UpsertSpacesView w.cat
            ⟨e.inode, spNode.mtime, w.now⟩ }
  else if !st.SDisk && st.SDb then
    match sv with
    | none => .ok w
    | some v => .ok { w with cat := Store.DeleteSpacesView w.cat v.entryIno }
  else .ok w

/-- Error-propagating sequencing of pipeline stages. -/
def pseq (x : Except PErr World) (f : World → Except PErr World) :
    Except PErr World :=
  match x with
  | .error e => .error e
  | .ok w => f w

/-- P0 with its guard, on a freshly gathered state. -/
def stage0 (w : World) (p : RPath) : Except PErr World :=
  match gatherState w p with
  | (entry, sv, st) => if !st.ADisk then p0M w entry sv p st else .ok w

/-- P1 with its guard. -/
def stage1 (w : World) (p : RPath) : Except PErr World :=
  match gatherState w p with
  | (_, _, st) => if !st.ADb && st.ADisk then p1M w p st else .ok w

/-- P2 with its guard (the guard can only hold when the entry exists). -/
def stage2 (w : World) (p : RPath) : Except PErr World :=
  match gatherState w p with
  | (some e, sv, st) => if st.ADirty || st.SDirty then p2M w e sv p st else .ok w
  | (none, _, st) => if st.ADirty || st.SDirty then .error .dbLookup else .ok w

/-- P3 with its guard. -/
def stage3 (w : World) (p : RPath) : Except PErr World :=
  match gatherState w p with
  | (some e, _, st) => if e.selected != st.SDisk then p3M w e p st else .ok w
  | (none, _, _) => .ok w

/-- P4 with its guard. -/
def stage4 (w : World) (p : RPath) : Except PErr World :=
  match gatherState w p with
  | (entry, sv, st) => if st.SDb != st.SDisk then p4M w entry sv p st else .ok w

/-- Mirrors Go `RunPipeline`: P0→P4 in order, re-gathering the seven
variables before each stage's guard, aborting on the first stage error. -/
def RunPipelineM (w : World) (p : RPath) : Except PErr World :=
  pseq (stage0 w p) (fun w1 =>
  pseq (stage1 w1 p) (fun w2 =>
  pseq (stage2 w2 p) (fun w3 =>
  pseq (stage3 w3 p) (fun w4 =>
  stage4 w4 p))))

/-- The fixed point of claim C3, phrased on the gathered state: `A_disk =
A_db`, `S_disk = S_db`, `selected = S_disk`, both dirty bits clear (the
`S_dirty` clause is exactly "`synced_mtime` equals the Spaces mtime
whenever `S_db`" given `S_disk = S_db`). -/
def FixedPoint (w : World) (p : RPath) : Prop :=
  (gatherState w p).2.2.ADisk = (gatherState w p).2.2.ADb ∧
  (gatherState w p).2.2.SDisk = (gatherState w p).2.2.SDb ∧
  (gatherState w p).2.2.Selected = (gatherState w p).2.2.SDisk ∧
  (gatherState w p).2.2.ADirty = false ∧
  (gatherState w p).2.2.SDirty = false

instance (w : World) (p : RPath) : Decidable (FixedPoint w p) := by
  unfold FixedPoint; infer_instance

end SelectiveFB

namespace SelectiveFB

/-- The scenario-24 state: A_disk=1, A_db=1, S_disk=1, S_db=0,
selected=0, A_dirty=1, S_dirty=0. -/
def s24 : State := ⟨true, true, true, false, false, true, false⟩

/-- C2: For every seven-variable state, `UIStatus` should equal the spec
table's label for `Scenario`.  The code disagrees at exactly scenario 24:
the state `s24` classifies as scenario 24, the spec table (and the repo's
own unit test `state_test.go` case "#24 conflict sel=0 A_dirty") assign
the label "conflict", but the code's `UIStatus` returns "repairing"
because the `19 ≤ sc ≤ 26` case fires before any conflict case covering
24.  This theorem evaluates the code at the failing input. -/
theorem uiStatus_code_bug_at_scenario24 :
    s24.Scenario = 24 ∧ s24.UIStatus = "repairing" ∧ specLabel 24 = "conflict" := by
  decide

/-- Sanity: on every state other than scenario 24, the code's label agrees
with the spec table. -/
theorem uiStatus_agrees_except_24 :
    ∀ a b c d e f g : Bool, (State.mk a b c d e f g).Scenario ≠ 24 →
      (State.mk a b c d e f g).UIStatus = specLabel (State.mk a b c d e f g).Scenario := by
  decide

/-- Witness for `uiStatus_agrees_except_24` at a concrete state. -/
theorem uiStatus_agrees_except_24_witness :
    (State.mk true true true true true false false).UIStatus
      = specLabel (State.mk true true true true true false false).Scenario := by
  exact uiStatus_agrees_except_24 true true true true true false false (by decide)

/-! ### Queue lemmas -/

theorem EvalQueue.wf_empty : EvalQueue.empty.WF := by
  refine ⟨List.nodup_nil, ?_, ?_, ?_⟩ <;> simp [EvalQueue.empty]

theorem EvalQueue.wf_push {q : EvalQueue} (h : q.WF) (p : String) : (q.Push p).WF := by
  obtain ⟨h1, h2, h3, h4⟩ := h
  unfold EvalQueue.Push
  split
  · exact ⟨h1, h2, h3, h4⟩
  · split
    · exact ⟨h1, h2, h3, h4⟩
    · rename_i hset hhi
      refine ⟨h1, h2, ?_, ?_⟩
      · intro x hx
        rcases Finset.mem_insert.mp hx with rfl | hx
        · simp
        · simp only [List.toFinset_append, List.toFinset_cons, List.toFinset_nil,
            Finset.mem_union]
          exact Or.inl (h3 hx)
      · intro x hxhi
        intro hmem
        rcases Finset.mem_insert.mp hmem with rfl | hmem'
        · exact hhi hxhi
        · exact h4 x hxhi hmem'

theorem EvalQueue.wf_pushPriority {q : EvalQueue} (h : q.WF) (p : String) :
    (q.PushPriority p).WF := by
  obtain ⟨h1, h2, h3, h4⟩ := h
  unfold EvalQueue.PushPriority
  split
  · exact ⟨h1, h2, h3, h4⟩
  · rename_i hhi
    have hpord : p ∉ q.hiOrder := by
      intro hmem
      exact hhi (h2 ▸ List.mem_toFinset.mpr hmem)
    refine ⟨?_, ?_, ?_, ?_⟩
    · simp [List.nodup_append, h1, hpord]
    · ext x
      simp only [Finset.mem_insert, List.toFinset_append, List.toFinset_cons,
        List.toFinset_nil, Finset.mem_union, h2, List.mem_toFinset]
      constructor
      · rintro (rfl | hx)
        · simp
        · exact Or.inl (by simpa using hx)
      · rintro (hx | hx)
        · exact Or.inr (by simpa using hx)
        · simp at hx; exact Or.inl hx
    · exact fun x hx => h3 (Finset.mem_of_mem_erase hx)
    · intro x hx
      rcases Finset.mem_insert.mp hx with rfl | hx
      · exact Finset.not_mem_erase x q.set
      · intro hmem
        exact h4 x hx (Finset.mem_of_mem_erase hmem)

theorem EvalQueue.wf_pushMany {q : EvalQueue} (h : q.WF) (ps : List String) :
    (q.PushMany ps).WF := by
  induction ps generalizing q with
  | nil => exact h
  | cons p rest ih => exact ih (EvalQueue.wf_push h p)

theorem popNormal_sound :
    ∀ (l : List String) (s : Finset String), s ⊆ l.toFinset →
      ∀ p rest s', popNormal l s = some (p, rest, s') →
        p ∈ s ∧ s' = s.erase p ∧ s.erase p ⊆ rest.toFinset := by
  intro l
  induction l with
  | nil => intro s _ p rest s' hpop; simp [popNormal] at hpop
  | cons hd tl ih =>
    intro s hsub p rest s' hpop
    by_cases hmem : hd ∈ s
    · simp only [popNormal, if_pos hmem, Option.some.injEq, Prod.mk.injEq] at hpop
      obtain ⟨rfl, rfl, rfl⟩ := hpop
      refine ⟨hmem, rfl, ?_⟩
      intro x hx
      have hxs : x ∈ s := Finset.mem_of_mem_erase hx
      have hxne : x ≠ hd := Finset.ne_of_mem_erase hx
      have := hsub hxs
      simp only [List.toFinset_cons, Finset.mem_insert] at this
      rcases this with rfl | hh
      · exact absurd rfl hxne
      · exact hh
    · simp only [popNormal, if_neg hmem] at hpop
      have hsub' : s ⊆ tl.toFinset := by
        intro x hx
        have := hsub hx
        simp only [List.toFinset_cons, Finset.mem_insert] at this
        rcases this with rfl | hh
        · exact absurd hx hmem
        · exact hh
      exact ih s hsub' p rest s' hpop

theorem EvalQueue.wf_pop {q q' : EvalQueue} {p : String} (h : q.WF)
    (hpop : q.Pop = some (p, q')) : q'.WF := by
  obtain ⟨h1, h2, h3, h4⟩ := h
  rcases hho : q.hiOrder with _ | ⟨ph, rest⟩
  · rw [EvalQueue.Pop, hho] at hpop
    rcases hpn : popNormal q.order q.set with _ | ⟨⟨p', rest', s'⟩⟩
    · rw [hpn] at hpop; exact absurd hpop (by simp)
    · rw [hpn] at hpop
      simp only [Option.some.injEq, Prod.mk.injEq] at hpop
      obtain ⟨rfl, rfl⟩ := hpop
      obtain ⟨hmem, rfl, hsub⟩ := popNormal_sound q.order q.set h3 p' rest' s' hpn
      rw [hho] at h1 h2
      refine ⟨h1, h2, hsub, ?_⟩
      intro x hx hmem'
      exact h4 x hx (Finset.mem_of_mem_erase hmem')
  · rw [EvalQueue.Pop, hho] at hpop
    simp only [Option.some.injEq, Prod.mk.injEq] at hpop
    obtain ⟨rfl, rfl⟩ := hpop
    rw [hho] at h1 h2
    have hph_rest : ph ∉ rest := (List.nodup_cons.mp h1).1
    refine ⟨(List.nodup_cons.mp h1).2, ?_, ?_, ?_⟩
    · show q.hiSet.erase ph = rest.toFinset
      ext x
      simp only [Finset.mem_erase, h2, List.toFinset_cons, Finset.mem_insert,
        List.mem_toFinset]
      constructor
      · rintro ⟨hne, rfl | hx⟩
        · exact absurd rfl hne
        · exact hx
      · intro hx
        exact ⟨fun hEq => hph_rest (hEq ▸ hx), Or.inr hx⟩
    · exact fun x hx => h3 (Finset.mem_of_mem_erase hx)
    · intro x hx hmem
      exact h4 x (Finset.mem_of_mem_erase hx) (Finset.mem_of_mem_erase hmem)

theorem EvalQueue.wf_reachable {q : EvalQueue} (h : q.Reachable) : q.WF := by
  induction h with
  | empty => exact EvalQueue.wf_empty
  | push hr ih => exact EvalQueue.wf_push ih _
  | pushPriority hr ih => exact EvalQueue.wf_pushPriority ih _
  | pushMany hr ih => exact EvalQueue.wf_pushMany ih _
  | pop hr hpop ih => exact EvalQueue.wf_pop ih hpop
  | drain hr ih => exact EvalQueue.wf_empty

/-- C5: in a well-formed two-tier queue, (a) whenever `Pop` returns a path
that is not in the priority tier, the priority tier is empty — so every
pending priority path is served before any normal-only path; (b) `Push`
is a no-op when the path is already pending in either tier; (c)
`PushPriority` removes the path's normal-tier membership, so a path has
at most one live pending slot across both tiers. -/
theorem evalQueue_priority_first_and_single_slot :
    ∀ q : EvalQueue, q.WF →
      (∀ p q', q.Pop = some (p, q') → p ∉ q.hiSet → q.hiSet = ∅) ∧
      (∀ p, q.Has p → q.Push p = q) ∧
      (∀ p, p ∉ (q.PushPriority p).set) := by
  intro q hwf
  obtain ⟨h1, h2, h3, h4⟩ := hwf
  refine ⟨?_, ?_, ?_⟩
  · intro p q' hpop hnot
    rcases hho : q.hiOrder with _ | ⟨ph, rest⟩
    · rw [h2, hho]; simp
    · rw [EvalQueue.Pop, hho] at hpop
      simp only [Option.some.injEq, Prod.mk.injEq] at hpop
      have hph : ph ∈ q.hiSet := by
        rw [h2, hho]; simp
      rw [hpop.1] at hph
      exact absurd hph hnot
  · intro p hhas
    unfold EvalQueue.Push
    rcases hhas with hhi | hset
    · by_cases hs : p ∈ q.set
      · simp [hs]
      · simp [hs, hhi]
    · simp [hset]
  · intro p
    unfold EvalQueue.PushPriority
    split
    · rename_i hhi
      exact h4 p hhi
    · exact Finset.not_mem_erase p q.set

/-- Witness for `evalQueue_priority_first_and_single_slot`: a concrete
queue holding "a" in the normal tier and "b" in the priority tier. -/
theorem evalQueue_priority_first_and_single_slot_witness :
    ¬("a" ∈ (((EvalQueue.empty.Push "a").PushPriority "b").PushPriority "a").set) :=
  (evalQueue_priority_first_and_single_slot
    ((EvalQueue.empty.Push "a").PushPriority "b") (by decide)).2.2 "a"

/-- C10: after any sequence of `Push`, `PushPriority`, `PushMany`, `Pop`
and `Drain`, the two membership sets are disjoint, `Len` equals the
number of distinct pending paths (so a stale normal-FIFO slot left by a
promotion is not counted), and `Pop` only ever returns pending paths
(never a stale slot). -/
theorem evalQueue_reachable_len_distinct :
    ∀ q : EvalQueue, q.Reachable →
      (∀ p ∈ q.hiSet, p ∉ q.set) ∧
      q.Len = (q.hiSet ∪ q.set).card ∧
      (∀ p q', q.Pop = some (p, q') → p ∈ q.hiSet ∪ q.set) := by
  intro q hr
  obtain ⟨h1, h2, h3, h4⟩ := EvalQueue.wf_reachable hr
  have hdisj : Disjoint q.hiSet q.set := by
    rw [Finset.disjoint_left]
    intro x hx
    exact h4 x hx
  refine ⟨h4, ?_, ?_⟩
  · rw [EvalQueue.Len, Finset.card_union_of_disjoint hdisj, h2,
      List.toFinset_card_of_nodup h1]
  · intro p q' hpop
    rcases hho : q.hiOrder with _ | ⟨ph, rest⟩
    · rw [EvalQueue.Pop, hho] at hpop
      rcases hpn : popNormal q.order q.set with _ | ⟨⟨p', rest', s'⟩⟩
      · rw [hpn] at hpop; exact absurd hpop (by simp)
      · rw [hpn] at hpop
        simp only [Option.some.injEq, Prod.mk.injEq] at hpop
        have hp' : p' ∈ q.set := (popNormal_sound q.order q.set h3 p' rest' s' hpn).1
        rw [hpop.1] at hp'
        exact Finset.mem_union_right _ hp'
    · rw [EvalQueue.Pop, hho] at hpop
      simp only [Option.some.injEq, Prod.mk.injEq] at hpop
      have hph : ph ∈ q.hiSet := by rw [h2, hho]; simp
      rw [hpop.1] at hph
      exact Finset.mem_union_left _ hph

/-- Witness for `evalQueue_reachable_len_distinct`: the queue where "a"
was pushed normally and then promoted, leaving a stale normal slot. -/
theorem evalQueue_reachable_len_distinct_witness :
    ((EvalQueue.empty.Push "a").PushPriority "a").Len
      = (((EvalQueue.empty.Push "a").PushPriority "a").hiSet
          ∪ ((EvalQueue.empty.Push "a").PushPriority "a").set).card :=
  (evalQueue_reachable_len_distinct ((EvalQueue.empty.Push "a").PushPriority "a")
    (EvalQueue.Reachable.pushPriority (EvalQueue.Reachable.push
      EvalQueue.Reachable.empty))).2.1

/-! ### SafeCopy lemmas -/

/-- The source file returned by the chunk loop is either the initial one
or the value of one of the schedule's modification events. -/
theorem copyLoop_src_provenance (evs : List CopyEv) :
    ∀ (cur : DFile) (pos : Nat) (acc : List Nat),
      (copyLoop evs cur pos acc).1 = cur ∨
        ∃ ev ∈ evs, ev.mod = some (copyLoop evs cur pos acc).1 := by
  induction evs with
  | nil => intro cur pos acc; exact Or.inl rfl
  | cons ev rest ih =>
    intro cur pos acc
    have hbase : ∀ x : DFile, x = ev.mod.getD cur →
        (x = cur ∨ ∃ e ∈ ev :: rest, e.mod = some x) := by
      intro x hx
      rcases hm : ev.mod with _ | f
      · left; rw [hx, hm]; rfl
      · right; refine ⟨ev, List.mem_cons_self _ _, ?_⟩; rw [hx, hm]; rfl
    show (copyLoop (ev :: rest) cur pos acc).1 = cur ∨ _
    rw [copyLoop]
    by_cases hc : ev.cancelled = true
    · simp only [hc, if_true]; exact hbase _ rfl
    · simp only [hc, if_false]
      by_cases hrq : ev.requeued = true
      · simp only [hrq, if_true]; exact hbase _ rfl
      · simp only [hrq, if_false]
        by_cases hemp : ((ev.mod.getD cur).bytes.drop pos).take chunkSize |>.isEmpty
        · simp only [hemp, if_true]; exact hbase _ rfl
        · simp only [hemp, if_false]
          by_cases hw : ev.writeFail = true
          · simp only [hw, if_true]; exact hbase _ rfl
          · simp only [hw, if_false]
            rcases ih (ev.mod.getD cur) _ _ with h | ⟨e, he, hm'⟩
            · exact hbase _ h
            · exact Or.inr ⟨e, List.mem_cons_of_mem _ he, hm'⟩

/-- If the chunk loop completes without error, no modification event had
the source's mtime, and the returned source still has the initial mtime,
then the source was never touched and the tmp contents are exactly the
initial source bytes. -/
theorem copyLoop_ok (evs : List CopyEv) :
    ∀ (cur : DFile) (pos : Nat) (acc : List Nat) (cur' : DFile) (acc' : List Nat),
      copyLoop evs cur pos acc = (cur', acc', none) →
      (∀ ev ∈ evs, ∀ f, ev.mod = some f → f.mtime ≠ cur.mtime) →
      cur'.mtime = cur.mtime →
      acc = cur.bytes.take pos →
      cur' = cur ∧ acc' = cur.bytes := by
  induction evs with
  | nil =>
    intro cur pos acc cur' acc' heq _ _ hacc
    rw [copyLoop] at heq
    simp only [Prod.mk.injEq] at heq
    obtain ⟨rfl, h2, _⟩ := heq
    refine ⟨rfl, ?_⟩
    rw [← h2, hacc, List.take_append_drop]
  | cons ev rest ih =>
    intro cur pos acc cur' acc' heq hmods hmt hacc
    rw [copyLoop] at heq
    rcases hm : ev.mod with _ | f
    all_goals rw [hm] at heq
    · -- no modification this iteration
      simp only [Option.getD_some, Option.getD_none] at heq
      by_cases hc : ev.cancelled = true
      · rw [if_pos hc] at heq; simp at heq
      · rw [if_neg hc] at heq
        by_cases hrq : ev.requeued = true
        · rw [if_pos hrq] at heq; simp at heq
        · rw [if_neg hrq] at heq
          by_cases hemp : ((cur.bytes.drop pos).take chunkSize).isEmpty
          · rw [if_pos hemp] at heq
            simp only [Prod.mk.injEq] at heq
            obtain ⟨rfl, rfl, _⟩ := heq
            refine ⟨rfl, ?_⟩
            have hnil : cur.bytes.drop pos = [] := by
              rcases List.take_eq_nil_iff.mp (List.isEmpty_iff.mp hemp) with h | h
              · exact absurd h (by simp [chunkSize])
              · exact h
            have hlen : cur.bytes.length ≤ pos := List.drop_eq_nil_iff.mp hnil
            rw [hacc, List.take_of_length_le hlen]
          · rw [if_neg hemp] at heq
            by_cases hw : ev.writeFail = true
            · rw [if_pos hw] at heq; simp at heq
            · rw [if_neg hw] at heq
              set chunk := (cur.bytes.drop pos).take chunkSize with hchunk
              refine ih cur (pos + chunk.length) (acc ++ chunk) cur' acc' heq
                (fun e he g hg => hmods e (List.mem_cons_of_mem _ he) g hg) hmt ?_
              rw [hacc, List.take_add]
              congr 1
              have h1 : (cur.bytes.drop pos).take chunk.length
                  = ((cur.bytes.drop pos).take chunkSize).take chunk.length := by
                rw [List.take_take]
                congr 1
                have h2 := List.length_take chunkSize (cur.bytes.drop pos)
                rw [hchunk, h2]
                exact (Nat.min_eq_left (Nat.min_le_left _ _)).symm
              rw [h1, ← hchunk, List.take_length]
    · -- src modified: impossible on success with unchanged mtime
      exfalso
      simp only [Option.getD_some] at heq
      have hfm : f.mtime ≠ cur.mtime := hmods ev (List.mem_cons_self _ _) f hm
      by_cases hc : ev.cancelled = true
      · rw [if_pos hc] at heq; simp at heq
      · rw [if_neg hc] at heq
        by_cases hrq : ev.requeued = true
        · rw [if_pos hrq] at heq; simp at heq
        · rw [if_neg hrq] at heq
          by_cases hemp : ((f.bytes.drop pos).take chunkSize).isEmpty
          · rw [if_pos hemp] at heq
            simp only [Prod.mk.injEq] at heq
            obtain ⟨rfl, _, _⟩ := heq
            exact hfm hmt
          · rw [if_neg hemp] at heq
            by_cases hw : ev.writeFail = true
            · rw [if_pos hw] at heq; simp at heq
            · rw [if_neg hw] at heq
              rcases copyLoop_src_provenance rest f
                  (pos + ((f.bytes.drop pos).take chunkSize).length)
                  (acc ++ (f.bytes.drop pos).take chunkSize) with hsame | ⟨e, he, hm'⟩
              · rw [heq] at hsame
                simp only at hsame
                exact hfm (hsame ▸ hmt)
              · rw [heq] at hm'
                simp only at hm'
                exact hmods e (List.mem_cons_of_mem _ he) cur' hm' hmt

/-- C1: the SafeCopy contract.  With every concurrent source modification
carrying a fresh mtime: if SafeCopy returns no error then `dst` exists,
holds the source bytes as observed at the initial stat, has the source's
mtime, and no tmp file remains; if it returns any error then `dst` is
untouched and no tmp file remains (including the initial-stat-failure
case, third conjunct, provided the call started without a leftover tmp). -/
theorem safeCopy_contract (fs : CopyFS) (evs : List CopyEv) (src0 : DFile)
    (hsrc : fs.src = some src0)
    (hmods : ∀ ev ∈ evs, ∀ f, ev.mod = some f → f.mtime ≠ src0.mtime) :
    (∀ fs', SafeCopy fs evs = (fs', none) →
        fs'.dst = some ⟨src0.bytes, src0.mtime⟩ ∧ fs'.tmp = none) ∧
    (∀ fs' e, SafeCopy fs evs = (fs', some e) →
        fs'.dst = fs.dst ∧ fs'.tmp = none) ∧
    (∀ g : CopyFS, g.src = none → g.tmp = none →
        ∀ fs' e, SafeCopy g evs = (fs', some e) →
          fs'.dst = g.dst ∧ fs'.tmp = none) := by
  have hsc : SafeCopy fs evs = safeCopyAux fs src0 evs := by
    rw [SafeCopy, hsrc]
  refine ⟨?_, ?_, ?_⟩
  case refine_3 =>
    intro g hg hgt fs' e heq
    rw [SafeCopy, hg] at heq
    simp only [Prod.mk.injEq] at heq
    obtain ⟨rfl, _⟩ := heq
    exact ⟨rfl, hgt⟩
  case refine_1 =>
    intro fs' heq
    rw [hsc] at heq
    rcases hcl : copyLoop evs src0 0 [] with ⟨srcFin, acc, err⟩
    rcases err with _ | e
    · have hval : safeCopyAux fs src0 evs
          = if src0.mtime ≠ srcFin.mtime then
              ({ fs with src := some srcFin, tmp := none }, some .sourceModified)
            else ({ fs with src := some srcFin,
                            dst := some ⟨acc, src0.mtime⟩, tmp := none }, none) := by
        rw [safeCopyAux, hcl]
      rw [hval] at heq
      by_cases hne : src0.mtime ≠ srcFin.mtime
      · rw [if_pos hne] at heq; simp at heq
      · rw [if_neg hne] at heq
        simp only [Prod.mk.injEq] at heq
        obtain ⟨rfl, _⟩ := heq
        have hmt : srcFin.mtime = src0.mtime := (not_ne_iff.mp hne).symm
        obtain ⟨_, hbytes⟩ := copyLoop_ok evs src0 0 [] srcFin acc hcl hmods hmt rfl
        subst hbytes
        exact ⟨rfl, rfl⟩
    · have hval : safeCopyAux fs src0 evs
          = ({ fs with src := some srcFin, tmp := none }, some e) := by
        rw [safeCopyAux, hcl]
      rw [hval] at heq
      simp at heq
  case refine_2 =>
    intro fs' e heq
    rw [hsc] at heq
    rcases hcl : copyLoop evs src0 0 [] with ⟨srcFin, acc, err⟩
    rcases err with _ | e'
    · have hval : safeCopyAux fs src0 evs
          = if src0.mtime ≠ srcFin.mtime then
              ({ fs with src := some srcFin, tmp := none }, some .sourceModified)
            else ({ fs with src := some srcFin,
                            dst := some ⟨acc, src0.mtime⟩, tmp := none }, none) := by
        rw [safeCopyAux, hcl]
      rw [hval] at heq
      by_cases hne : src0.mtime ≠ srcFin.mtime
      · rw [if_pos hne] at heq
        simp only [Prod.mk.injEq] at heq
        obtain ⟨rfl, _⟩ := heq
        exact ⟨rfl, rfl⟩
      · rw [if_neg hne] at heq; simp at heq
    · have hval : safeCopyAux fs src0 evs
          = ({ fs with src := some srcFin, tmp := none }, some e') := by
        rw [safeCopyAux, hcl]
      rw [hval] at heq
      simp only [Prod.mk.injEq] at heq
      obtain ⟨rfl, _⟩ := heq
      exact ⟨rfl, rfl⟩

/-- Witness for `safeCopy_contract`: a three-byte source copied with an
empty interference schedule. -/
theorem safeCopy_contract_witness :
    (SafeCopy ⟨some ⟨[1, 2, 3], 5⟩, none, none⟩ []).1.dst = some ⟨[1, 2, 3], 5⟩ := by
  have h := (safeCopy_contract ⟨some ⟨[1, 2, 3], 5⟩, none, none⟩ [] ⟨[1, 2, 3], 5⟩
    rfl (by intro ev hev; simp at hev)).1
  exact (h (SafeCopy ⟨some ⟨[1, 2, 3], 5⟩, none, none⟩ []).1 (by decide)).1

/-! ### Watcher skip list -/

/-- C8 counterexample: "r_conflict-1.txt" is exactly the conflict name
the repo generates for "r.txt" (smallest free N = 1), its basename
contains the conflict suffix fragment "_conflict-", yet the watcher's
skip check (which looks for ".sync-conflict-") does not drop it: the
event enters the debounce pending set, from which paths are flushed to
the queue. -/
theorem watcher_passes_conflict_name :
    ConflictName [] "r.txt".toList = some (1, "r_conflict-1.txt".toList) ∧
    containsSub conflictFragment "r_conflict-1.txt".toList = true ∧
    watcherSkip "r_conflict-1.txt".toList = false ∧
    watcherProcessEvent ∅ "r_conflict-1.txt".toList
      = insert "r_conflict-1.txt".toList ∅ := by
  decide

/-- C8 amended: the watcher drops exactly the events whose basename
starts with "." or contains ".sync-conflict-"; a basename containing
only the repo's own conflict fragment "_conflict-" is not dropped and
joins the debounce pending set. -/
theorem watcher_skip_amended :
    ∀ (pending : Finset (List Char)) (base : List Char),
      (watcherSkip base = true → watcherProcessEvent pending base = pending) ∧
      (containsSub conflictFragment base = true →
        listStartsWith base ['.'] = false →
        containsSub syncConflictFragment base = false →
        watcherProcessEvent pending base = insert base pending) := by
  intro pending base
  constructor
  · intro h
    simp [watcherProcessEvent, h]
  · intro _ h1 h2
    have hskip : watcherSkip base = false := by
      simp [watcherSkip, h1, h2]
    simp [watcherProcessEvent, hskip]

/-- Witness for `watcher_skip_amended` at the generated conflict name. -/
theorem watcher_skip_amended_witness :
    watcherProcessEvent ∅ "r_conflict-1.txt".toList
      = insert "r_conflict-1.txt".toList (∅ : Finset (List Char)) :=
  (watcher_skip_amended ∅ "r_conflict-1.txt".toList).2
    (by decide) (by decide) (by decide)

/-! ### UpsertEntry -/

/-- A catalog holding a directory `d` (inode 10) with one child `c.txt`
(inode 11). -/
def c6pre : Catalog :=
  ⟨[⟨10, 0, "d".toList, "dir".toList, none, 1, false⟩,
    ⟨11, 10, "c.txt".toList, "text".toList, some 2, 1, false⟩], []⟩

/-- An upsert of the same path `d` under a new inode 20. -/
def c6new : Entry := ⟨20, 0, "d".toList, "dir".toList, none, 5, false⟩

/-- C6 counterexample: upserting `(parent 0, "d")` with a new inode does
NOT delete the stale row or its subtree — the conflicting row is updated
in place (ON CONFLICT DO UPDATE) and the child row (inode 11) survives,
now orphaned under the vanished parent inode 10. -/
theorem upsertEntry_counterexample :
    (Store.UpsertEntry c6pre c6new).entries =
      [⟨20, 0, "d".toList, "dir".toList, none, 5, false⟩,
       ⟨11, 10, "c.txt".toList, "text".toList, some 2, 1, false⟩] ∧
    (Store.UpsertEntry c6pre c6new).entries.any (fun r => r.inode == 11) = true := by
  decide

theorem subtreeClosure_nil (entries : List Entry) (fuel : Nat) :
    subtreeClosure entries fuel [] = [] := by
  cases fuel with
  | zero => rfl
  | succ n => simp [subtreeClosure, List.contains_nil]

/-- When no row holds the new entry's inode at a different path,
statement 1 of UpsertEntry (the CTE cleanup) deletes nothing. -/
theorem upsertCleanup_noStale (c : Catalog) (e : Entry)
    (hnostale : ∀ r ∈ c.entries, r.inode = e.inode →
        r.parentIno = e.parentIno ∧ r.name = e.name) :
    upsertCleanup c e = c := by
  rw [upsertCleanup]
  have hroots : c.entries.filter (fun r =>
      r.inode == e.inode && !(r.parentIno == e.parentIno && r.name == e.name)) = [] := by
    rw [List.filter_eq_nil_iff]
    intro r hr
    by_cases hi : r.inode = e.inode
    · obtain ⟨hp, hn⟩ := hnostale r hr hi
      simp [hi, hp, hn]
    · simp [hi]
  rw [hroots]
  simp only [List.map_nil, subtreeClosure_nil, List.contains_nil, Bool.not_false]
  show (⟨c.entries.filter (fun _ => true), c.views.filter (fun _ => true)⟩ : Catalog) = c
  rw [List.filter_true, List.filter_true]

/-- C6 amended: on a conflict with the same `(parent_ino, name)` key but
a different inode (and no row holding the new inode elsewhere), the
stale row is NOT deleted: it is updated in place to the new inode, type,
size and mtime with its `selected` flag preserved, every other row — in
particular every descendant of the old inode — survives unchanged, and
`spaces_view` rows referencing the old inode are retargeted to the new
inode by ON UPDATE CASCADE.  (Subtree deletion happens only in the other
direction: when the new inode already exists at a different path.) -/
theorem upsertEntry_conflict_updates_in_place (c : Catalog) (e : Entry) (old : Entry)
    (hnostale : ∀ r ∈ c.entries, r.inode = e.inode →
        r.parentIno = e.parentIno ∧ r.name = e.name)
    (hfind : c.entries.find? (fun r =>
        r.parentIno == e.parentIno && r.name == e.name) = some old) :
    (Store.UpsertEntry c e).entries.length = c.entries.length ∧
    (∀ r ∈ c.entries, ¬(r.parentIno = e.parentIno ∧ r.name = e.name) →
        r ∈ (Store.UpsertEntry c e).entries) ∧
    (∀ r ∈ (Store.UpsertEntry c e).entries,
        r.parentIno = e.parentIno → r.name = e.name →
        ∃ r0 ∈ c.entries, r0.parentIno = e.parentIno ∧ r0.name = e.name ∧
          r = { r0 with inode := e.inode, type := e.type,
                        size := e.size, mtime := e.mtime }) ∧
    (Store.UpsertEntry c e).views = c.views.map (fun v =>
        if v.entryIno == old.inode then { v with entryIno := e.inode } else v) := by
  have hclean : Store.UpsertEntry c e = upsertInsert c e := by
    rw [Store.UpsertEntry, upsertCleanup_noStale c e hnostale]
  have hval : upsertInsert c e =
      ⟨c.entries.map (fun r =>
          if r.parentIno == e.parentIno && r.name == e.name then
            { r with inode := e.inode, type := e.type,
                     size := e.size, mtime := e.mtime }
          else r),
       c.views.map (fun v =>
          if v.entryIno == old.inode then { v with entryIno := e.inode } else v)⟩ := by
    rw [upsertInsert, hfind]
  rw [hclean, hval]
  refine ⟨List.length_map _ _, ?_, ?_, rfl⟩
  · intro r hr hne
    have hcond : (r.parentIno == e.parentIno && r.name == e.name) = false := by
      rcases Decidable.not_and_iff_or_not.mp hne with h | h <;> simp [h]
    have hmem := List.mem_map_of_mem (fun r =>
      if r.parentIno == e.parentIno && r.name == e.name then
        { r with inode := e.inode, type := e.type,
                 size := e.size, mtime := e.mtime }
      else r) hr
    simp only [hcond] at hmem
    simpa using hmem
  · intro r hr hp hn
    obtain ⟨r0, hr0, hfr0⟩ := List.mem_map.mp hr
    by_cases hcond : (r0.parentIno == e.parentIno && r0.name == e.name) = true
    · obtain ⟨hp0, hn0⟩ : r0.parentIno = e.parentIno ∧ r0.name = e.name := by
        simpa using hcond
      exact ⟨r0, hr0, hp0, hn0, by rw [← hfr0, if_pos hcond]⟩
    · exfalso
      rw [if_neg hcond] at hfr0
      subst hfr0
      exact hcond (by simp [hp, hn])

/-- Witness for `upsertEntry_conflict_updates_in_place` at the concrete
catalog of the counterexample. -/
theorem upsertEntry_conflict_updates_in_place_witness :
    (Store.UpsertEntry c6pre c6new).views = c6pre.views.map (fun v =>
        if v.entryIno == 10 then { v with entryIno := c6new.inode } else v) :=
  (upsertEntry_conflict_updates_in_place c6pre c6new
    ⟨10, 0, "d".toList, "dir".toList, none, 1, false⟩
    (by decide) (by decide)).2.2.2

/-! ### SetSelected / rollback -/

theorem updSet_nil_set (flag : Bool) (l : List Entry) : updSet [] flag l = l := by
  rw [updSet]
  have : ∀ e ∈ l, (if ([] : List Nat).contains e.inode then
      { e with selected := flag } else e) = e := by
    intro e _
    simp
  rw [List.map_congr_left this]
  exact List.map_id' l

theorem updSet_map_upd (l0 : List Entry) (W : List Nat) (flag : Bool) (k : Nat) :
    (updSet W flag l0).map (fun e =>
        if e.inode == k then { e with selected := flag } else e)
      = updSet (W ++ [k]) flag l0 := by
  rw [updSet, updSet, List.map_map]
  refine List.map_congr_left ?_
  intro e _
  simp only [Function.comp]
  by_cases hw : e.inode ∈ W
  · have h1 : W.contains e.inode = true := by simpa using hw
    have h2 : (W ++ [k]).contains e.inode = true := by simp [hw]
    simp only [h1, h2, if_true]
    split <;> rfl
  · have h1 : W.contains e.inode = false := by simpa using hw
    by_cases hk : e.inode = k
    · have h2 : (W ++ [k]).contains e.inode = true := by simp [hk]
      simp only [h1, h2, Bool.false_eq_true, if_false, if_true]
      rw [if_pos (by simpa using hk)]
    · have h2 : (W ++ [k]).contains e.inode = false := by simp [hw, hk]
      simp only [h1, h2, Bool.false_eq_true, if_false]
      rw [if_neg (by simpa using hk)]

theorem dirReach.trans {l : List Entry} {a b q : Nat}
    (h1 : dirReach l a b) (h2 : dirReach l b q) : dirReach l a q := by
  induction h2 with
  | base => exact h1
  | step r hr hreach hdir ih => exact dirReach.step r hr ih hdir

theorem updSet_upd_type (W : List Nat) (flag : Bool) (r : Entry) :
    (if W.contains r.inode then { r with selected := flag } else r).type = r.type := by
  split <;> rfl

theorem updSet_upd_inode (W : List Nat) (flag : Bool) (r : Entry) :
    (if W.contains r.inode then { r with selected := flag } else r).inode = r.inode := by
  split <;> rfl

theorem updSet_upd_parent (W : List Nat) (flag : Bool) (r : Entry) :
    (if W.contains r.inode then { r with selected := flag } else r).parentIno
      = r.parentIno := by
  split <;> rfl

/-- `setSelectedRecursive` only performs flag-writes: its result is
`updSet` of some write-set `W` whose members are inodes of rows whose
parent is `dirReach`-able from `p`; with fuel available, every direct
child of `p` is written. -/
theorem setSelectedRec_updSet :
    ∀ (fuel : Nat) (l0 : List Entry) (p : Nat) (flag : Bool) (W0 : List Nat),
      ∃ W : List Nat,
        setSelectedRec fuel (updSet W0 flag l0) p flag = updSet (W0 ++ W) flag l0 ∧
        (∀ k ∈ W, ∃ r ∈ l0, r.inode = k ∧ dirReach l0 p r.parentIno) ∧
        (0 < fuel → ∀ r ∈ l0, r.parentIno = p → r.inode ∈ W0 ++ W) := by
  intro fuel
  induction fuel with
  | zero =>
    intro l0 p flag W0
    exact ⟨[], by rw [List.append_nil]; rfl, by simp, by simp⟩
  | succ n ih =>
    intro l0 p flag W0
    rw [setSelectedRec]
    have hchildren : (updSet W0 flag l0).filter (fun e => e.parentIno == p)
        = (l0.filter (fun e => e.parentIno == p)).map (fun e =>
            if W0.contains e.inode then { e with selected := flag } else e) := by
      rw [updSet, List.filter_map]
      congr 1
      refine List.filter_congr ?_
      intro e _
      simp only [Function.comp]
      rw [updSet_upd_parent]
    rw [hchildren]
    have hfold : ∀ (cs0 : List Entry), (∀ r ∈ cs0, r ∈ l0 ∧ r.parentIno = p) →
        ∀ (W' : List Nat),
        ∃ W, ((cs0.map (fun e =>
              if W0.contains e.inode then { e with selected := flag } else e)).foldl
            (fun acc child =>
              if child.type == dirT then
                setSelectedRec n (acc.map (fun e =>
                  if e.inode == child.inode then { e with selected := flag } else e))
                  child.inode flag
              else acc.map (fun e =>
                if e.inode == child.inode then { e with selected := flag } else e))
            (updSet W' flag l0) = updSet (W' ++ W) flag l0) ∧
          (∀ k ∈ W, ∃ r ∈ l0, r.inode = k ∧ dirReach l0 p r.parentIno) ∧
          (∀ r ∈ cs0, r.inode ∈ W' ++ W) := by
      intro cs0
      induction cs0 with
      | nil =>
        intro _ W'
        exact ⟨[], by rw [List.append_nil]; rfl, by simp, by simp⟩
      | cons r rest ihcs =>
        intro hmem W'
        obtain ⟨hrl0, hrp⟩ := hmem r (List.mem_cons_self _ _)
        simp only [List.map_cons, List.foldl_cons, updSet_upd_type, updSet_upd_inode]
        by_cases hdir : (r.type == dirT) = true
        · rw [if_pos hdir, updSet_map_upd]
          obtain ⟨W1, heq1, hb1, _⟩ := ih l0 r.inode flag (W' ++ [r.inode])
          rw [heq1]
          obtain ⟨W2, heq2, hb2, hm2⟩ :=
            ihcs (fun x hx => hmem x (List.mem_cons_of_mem _ hx)) ((W' ++ [r.inode]) ++ W1)
          rw [heq2]
          refine ⟨[r.inode] ++ W1 ++ W2, by simp [List.append_assoc], ?_, ?_⟩
          · intro k hk
            rcases List.mem_append.mp hk with hk' | hk2
            · rcases List.mem_append.mp hk' with hk0 | hk1
              · rcases List.mem_singleton.mp hk0 with rfl
                exact ⟨r, hrl0, rfl, hrp ▸ dirReach.base⟩
              · obtain ⟨r', hr', hri, hreach⟩ := hb1 k hk1
                refine ⟨r', hr', hri, ?_⟩
                have hbase : dirReach l0 p r.inode :=
                  dirReach.step r hrl0 (hrp ▸ dirReach.base) (by simpa using hdir)
                exact dirReach.trans hbase hreach
            · exact hb2 k hk2
          · intro x hx
            rcases hx with _ | hx'
            · simp
            · have := hm2 x (by assumption)
              simp only [List.mem_append] at this ⊢
              tauto
        · rw [if_neg hdir, updSet_map_upd]
          obtain ⟨W2, heq2, hb2, hm2⟩ :=
            ihcs (fun x hx => hmem x (List.mem_cons_of_mem _ hx)) (W' ++ [r.inode])
          rw [heq2]
          refine ⟨[r.inode] ++ W2, by simp [List.append_assoc], ?_, ?_⟩
          · intro k hk
            rcases List.mem_append.mp hk with hk0 | hk2
            · rcases List.mem_singleton.mp hk0 with rfl
              exact ⟨r, hrl0, rfl, hrp ▸ dirReach.base⟩
            · exact hb2 k hk2
          · intro x hx
            rcases hx with _ | hx'
            · simp
            · have := hm2 x (by assumption)
              simp only [List.mem_append] at this ⊢
              tauto
    obtain ⟨W, heq, hb, hm⟩ := hfold (l0.filter (fun e => e.parentIno == p))
      (fun x hx => ⟨(List.mem_filter.mp hx).1, by
        have := (List.mem_filter.mp hx).2; simpa using this⟩) W0
    refine ⟨W, heq, hb, ?_⟩
    intro _ r hr hrp
    exact hm r (List.mem_filter.mpr ⟨hr, by simpa using hrp⟩)

theorem updSet_mem_of_mem {l : List Entry} {r : Entry} (hr : r ∈ l)
    (W : List Nat) (flag : Bool) (hw : r.inode ∈ W) :
    { r with selected := flag } ∈ updSet W flag l := by
  refine List.mem_map.mpr ⟨r, hr, ?_⟩
  show (if W.contains r.inode then { r with selected := flag } else r) = _
  rw [if_pos (by simpa using hw)]

theorem updSet_frame {l : List Entry} {r : Entry} (hr : r ∈ l)
    (W : List Nat) (flag : Bool) (hw : r.inode ∉ W) :
    r ∈ updSet W flag l := by
  refine List.mem_map.mpr ⟨r, hr, ?_⟩
  show (if W.contains r.inode then { r with selected := flag } else r) = _
  rw [if_neg (by simpa using hw)]

theorem updSet_selected_of_inode {l : List Entry} {W : List Nat} {flag : Bool}
    {r' : Entry} (hr' : r' ∈ updSet W flag l) (hw : r'.inode ∈ W) :
    r'.selected = flag := by
  obtain ⟨r, _, hfr⟩ := List.mem_map.mp hr'
  by_cases hc : r.inode ∈ W
  · rw [if_pos (by simpa using hc)] at hfr
    rw [← hfr]
  · rw [if_neg (by simpa using hc)] at hfr
    subst hfr
    exact absurd hw hc

/-- `Store.SetSelected` on a single inode: an `updSet` whose write-set
starts with the inode itself, whose other members lie below it in the
dir-reachability order, and which covers every direct child. -/
theorem setSelected_single (c : Catalog) (ino : Nat) (flag : Bool) :
    ∃ W : List Nat,
      (Store.SetSelected c [ino] flag).entries = updSet ([ino] ++ W) flag c.entries ∧
      (∀ k ∈ W, ∃ r ∈ c.entries, r.inode = k ∧ dirReach c.entries ino r.parentIno) ∧
      (∀ r ∈ c.entries, r.parentIno = ino → r.inode ∈ [ino] ++ W) ∧
      (Store.SetSelected c [ino] flag).views = c.views := by
  have hstep : c.entries.map (fun e =>
      if e.inode == ino then { e with selected := flag } else e)
      = updSet [ino] flag c.entries := by
    have h := updSet_map_upd c.entries [] flag ino
    rwa [updSet_nil_set] at h
  obtain ⟨W, heq, hb, hm⟩ :=
    setSelectedRec_updSet c.entries.length c.entries ino flag [ino]
  refine ⟨W, ?_, hb, ?_, rfl⟩
  · show setSelectedRec c.entries.length (c.entries.map (fun e =>
      if e.inode == ino then { e with selected := flag } else e)) ino flag = _
    rw [hstep, heq]
  · intro r hr hrp
    have hlen : 0 < c.entries.length := List.length_pos_of_mem hr
    exact hm hlen r hr hrp

theorem lookupFrom_mem {c : Catalog} :
    ∀ {path : List (List Char)} {p : Nat} {e : Entry},
      lookupFrom c p path = some e → e ∈ c.entries := by
  intro path
  induction path with
  | nil => intro p e h; exact absurd h (by simp [lookupFrom])
  | cons part rest ih =>
    intro p e h
    rcases hg : getEntryByPath c p part with _ | e1
    · have hval : lookupFrom c p (part :: rest) = none := by
        rw [lookupFrom, hg]
      rw [hval] at h
      exact absurd h (by simp)
    · have hval : lookupFrom c p (part :: rest)
          = if rest.isEmpty then some e1 else lookupFrom c e1.inode rest := by
        rw [lookupFrom, hg]
      rw [hval] at h
      by_cases hrest : rest.isEmpty
      · rw [if_pos hrest] at h
        obtain rfl := Option.some.inj h
        have hg' : c.entries.find? (fun r =>
            r.parentIno == p && r.name == part) = some e1 := hg
        exact List.mem_of_find?_eq_some hg'
      · rw [if_neg hrest] at h
        exact ih h

theorem upsertSpacesView_entries (c : Catalog) (sv : SpacesView) :
    (Store.UpsertSpacesView c sv).entries = c.entries := by
  rw [Store.UpsertSpacesView]
  split <;> rfl

theorem deleteSpacesView_entries (c : Catalog) (ino : Nat) :
    (Store.DeleteSpacesView c ino).entries = c.entries := rfl

/-- `rollbackSel` either leaves the catalog alone (already aligned) or
recursively sets the flag to the Spaces-disk truth. -/
theorem rollbackSel_eq (c : Catalog) (sx : Bool) (e : Entry) :
    rollbackSel c sx e
      = if sx = e.selected then c else Store.SetSelected c [e.inode] sx := by
  rcases sx <;> by_cases hsel : e.selected = true <;>
    simp [rollbackSel, hsel]

theorem rollbackSel_views (c : Catalog) (sx : Bool) (e : Entry) :
    (rollbackSel c sx e).views = c.views := by
  rw [rollbackSel_eq]
  split <;> rfl

theorem upsertSpacesView_views_new (c : Catalog) (sv : SpacesView)
    (h : c.views.find? (fun v => v.entryIno == sv.entryIno) = none) :
    (Store.UpsertSpacesView c sv).views = c.views ++ [sv] := by
  rw [Store.UpsertSpacesView, h]
  rfl

/-- The catalog of the C7 counterexample: unselected directory `d`
(inode 10) with one unselected file child `c.txt` (inode 11). -/
def c7pre : Catalog :=
  ⟨[⟨10, 0, "d".toList, "dir".toList, none, 1, false⟩,
    ⟨11, 10, "c.txt".toList, "text".toList, some 2, 1, false⟩], []⟩

/-- C7 counterexample: rolling back path `d` while the Spaces copy
exists flips `d`'s selected flag — but also the selected flag of its
descendant `c.txt` (inode 11), because the rollback uses the recursive
`SetSelected`.  The claim said the descendants' flags are unchanged. -/
theorem rollback_counterexample :
    (rollbackState c7pre (some 7) 9 ["d".toList]).entries =
      [⟨10, 0, "d".toList, "dir".toList, none, 1, true⟩,
       ⟨11, 10, "c.txt".toList, "text".toList, some 2, 1, true⟩] ∧
    (rollbackState c7pre (some 7) 9 ["d".toList]).views = [⟨10, 7, 9⟩] := by
  decide

/-- C7 amended: after a pipeline error on path `p`, rollback aligns `p`
with Spaces disk reality: `p`'s row ends with `selected` equal to
Spaces-existence; when this is a flip, the flag propagates to `p`'s
descendants (recursively through directory rows) — in particular every
direct child gets the same value; catalog rows outside `p` and its
dir-reachable subtree are unchanged; and the SpacesView row is created
from the current Spaces mtime when Spaces exists without one, deleted
when Spaces is absent, and left alone otherwise. -/
theorem rollback_amended (c : Catalog) (m : Option Int) (now : Int)
    (path : List (List Char)) (e : Entry)
    (hlook : lookupFrom c 0 path = some e)
    (hnodup : (c.entries.map (fun r => r.inode)).Nodup) :
    (e.selected = m.isSome → (rollbackState c m now path).entries = c.entries) ∧
    (∀ r ∈ (rollbackState c m now path).entries, r.inode = e.inode →
        r.selected = m.isSome) ∧
    (e.selected ≠ m.isSome → ∀ r ∈ c.entries, r.parentIno = e.inode →
        { r with selected := m.isSome } ∈ (rollbackState c m now path).entries) ∧
    (∀ r ∈ c.entries, r.inode ≠ e.inode →
        ¬ dirReach c.entries e.inode r.parentIno →
        r ∈ (rollbackState c m now path).entries) ∧
    (∀ m0, m = some m0 → getSpacesView c e.inode = none →
        (rollbackState c m now path).views = c.views ++ [⟨e.inode, m0, now⟩]) ∧
    (∀ m0, m = some m0 → (getSpacesView c e.inode).isSome →
        (rollbackState c m now path).views = c.views) ∧
    (m = none →
        (rollbackState c m now path).views
          = c.views.filter (fun v => !(v.entryIno == e.inode))) := by
  have he_mem : e ∈ c.entries := lookupFrom_mem hlook
  have hsel_main : ∀ sx : Bool,
      (e.selected = sx → (rollbackSel c sx e).entries = c.entries) ∧
      (∀ r ∈ (rollbackSel c sx e).entries, r.inode = e.inode → r.selected = sx) ∧
      (e.selected ≠ sx → ∀ r ∈ c.entries, r.parentIno = e.inode →
          { r with selected := sx } ∈ (rollbackSel c sx e).entries) ∧
      (∀ r ∈ c.entries, r.inode ≠ e.inode →
          ¬ dirReach c.entries e.inode r.parentIno →
          r ∈ (rollbackSel c sx e).entries) := by
    intro sx
    rw [rollbackSel_eq]
    by_cases hals : sx = e.selected
    · rw [if_pos hals]
      refine ⟨fun _ => rfl, ?_, fun hne => absurd hals.symm hne, fun r hr _ _ => hr⟩
      intro r hr hri
      have hre : r = e := List.inj_on_of_nodup_map hnodup hr he_mem hri
      rw [hre, ← hals]
    · rw [if_neg hals]
      obtain ⟨W, heq, hb, hm, _⟩ := setSelected_single c e.inode sx
      refine ⟨fun h => absurd h.symm hals, ?_, ?_, ?_⟩
      · intro r hr hri
        rw [heq] at hr
        refine updSet_selected_of_inode hr ?_
        rw [hri]
        exact List.mem_append_left _ (List.mem_singleton_self _)
      · intro _ r hr hrp
        rw [heq]
        exact updSet_mem_of_mem hr _ sx (hm r hr hrp)
      · intro r hr hri hreach
        rw [heq]
        refine updSet_frame hr _ sx ?_
        intro hmem
        rcases List.mem_append.mp hmem with h1 | h2
        · exact hri (List.mem_singleton.mp h1)
        · obtain ⟨r0, hr0, hr0i, hr0reach⟩ := hb _ h2
          have hr0r : r0 = r := List.inj_on_of_nodup_map hnodup hr0 hr (by rw [hr0i])
          exact hreach (hr0r ▸ hr0reach)
  rcases m with _ | m0
  · -- Spaces absent
    rcases hsv : getSpacesView c e.inode with _ | v
    · have hrb : rollbackState c none now path = rollbackSel c false e := by
        rw [rollbackState, hlook]
        show (match getSpacesView c e.inode with
          | some v => Store.DeleteSpacesView (rollbackSel c false e) v.entryIno
          | none => rollbackSel c false e) = _
        rw [hsv]
      obtain ⟨hA, hB, hC, hD⟩ := hsel_main false
      refine ⟨fun h => by rw [hrb]; exact hA (by simpa using h),
        fun r hr hri => by rw [hrb] at hr; simpa using hB r hr hri,
        fun hne r hr hrp => by rw [hrb]; simpa using hC (by simpa using hne) r hr hrp,
        fun r hr hri hreach => by rw [hrb]; exact hD r hr hri hreach,
        fun m0 hm0 => absurd hm0 (by simp),
        fun m0 hm0 => absurd hm0 (by simp),
        ?_⟩
      intro _
      rw [hrb, rollbackSel_views]
      refine (List.filter_eq_self.mpr ?_).symm
      intro w hw
      have hwne := List.find?_eq_none.mp hsv w hw
      simpa using hwne
    · have hrb : rollbackState c none now path
          = Store.DeleteSpacesView (rollbackSel c false e) v.entryIno := by
        rw [rollbackState, hlook]
        show (match getSpacesView c e.inode with
          | some v => Store.DeleteSpacesView (rollbackSel c false e) v.entryIno
          | none => rollbackSel c false e) = _
        rw [hsv]
      have hvino : v.entryIno = e.inode := by
        have := List.find?_some hsv
        simpa using this
      obtain ⟨hA, hB, hC, hD⟩ := hsel_main false
      have hent : (rollbackState c none now path).entries
          = (rollbackSel c false e).entries := by
        rw [hrb, deleteSpacesView_entries]
      refine ⟨fun h => by rw [hent]; exact hA (by simpa using h),
        fun r hr hri => by rw [hent] at hr; simpa using hB r hr hri,
        fun hne r hr hrp => by rw [hent]; simpa using hC (by simpa using hne) r hr hrp,
        fun r hr hri hreach => by rw [hent]; exact hD r hr hri hreach,
        fun m0 hm0 => absurd hm0 (by simp),
        fun m0 hm0 => absurd hm0 (by simp),
        ?_⟩
      intro _
      rw [hrb]
      show ((rollbackSel c false e).views.filter
        (fun w => !(w.entryIno == v.entryIno))) = _
      rw [rollbackSel_views, hvino]
  · -- Spaces present
    rcases hsv : getSpacesView c e.inode with _ | v
    · have hrb : rollbackState c (some m0) now path
          = Store.UpsertSpacesView (rollbackSel c true e) ⟨e.inode, m0, now⟩ := by
        rw [rollbackState, hlook]
        show (match getSpacesView c e.inode with
          | none => Store.UpsertSpacesView (rollbackSel c true e) ⟨e.inode, m0, now⟩
          | some _ => rollbackSel c true e) = _
        rw [hsv]
      obtain ⟨hA, hB, hC, hD⟩ := hsel_main true
      have hent : (rollbackState c (some m0) now path).entries
          = (rollbackSel c true e).entries := by
        rw [hrb, upsertSpacesView_entries]
      refine ⟨fun h => by rw [hent]; exact hA (by simpa using h),
        fun r hr hri => by rw [hent] at hr; simpa using hB r hr hri,
        fun hne r hr hrp => by rw [hent]; simpa using hC (by simpa using hne) r hr hrp,
        fun r hr hri hreach => by rw [hent]; exact hD r hr hri hreach,
        ?_, ?_, fun hm0 => absurd hm0 (by simp)⟩
      · intro m1 hm1 _
        obtain rfl := Option.some.inj hm1
        rw [hrb]
        have hfind : (rollbackSel c true e).views.find?
            (fun w => w.entryIno == (⟨e.inode, m0, now⟩ : SpacesView).entryIno)
              = none := by
          rw [rollbackSel_views]
          exact hsv
        rw [upsertSpacesView_views_new _ _ hfind, rollbackSel_views]
      · intro m1 hm1 hsome
        exact absurd hsome (by simp)
    · have hrb : rollbackState c (some m0) now path = rollbackSel c true e := by
        rw [rollbackState, hlook]
        show (match getSpacesView c e.inode with
          | none => Store.UpsertSpacesView (rollbackSel c true e) ⟨e.inode, m0, now⟩
          | some _ => rollbackSel c true e) = _
        rw [hsv]
      obtain ⟨hA, hB, hC, hD⟩ := hsel_main true
      refine ⟨fun h => by rw [hrb]; exact hA (by simpa using h),
        fun r hr hri => by rw [hrb] at hr; simpa using hB r hr hri,
        fun hne r hr hrp => by rw [hrb]; simpa using hC (by simpa using hne) r hr hrp,
        fun r hr hri hreach => by rw [hrb]; exact hD r hr hri hreach,
        ?_, ?_, fun hm0 => absurd hm0 (by simp)⟩
      · intro m1 _ hnone
        exact absurd hnone (by simp)
      · intro m1 _ _
        rw [hrb, rollbackSel_views]

/-! ### Pipeline fixed point -/

theorem lookupDBW_none {c : Catalog} {p : RPath}
    (h : (lookupDBW c p).1 = none) : (lookupDBW c p).2 = none := by
  rcases hl : lookupFrom c 0 p with _ | e
  · rw [lookupDBW, hl]
  · rw [lookupDBW, hl] at h
    exact absurd h (by simp)

theorem pseq_ok (w : World) (f : World → Except PErr World) :
    pseq (Except.ok w) f = f w := rfl

/-- C3: running the pipeline on a path that is already at the fixed
point (A_disk = A_db, S_disk = S_db, selected = S_disk, both dirty bits
clear — hence synced_mtime equals the Spaces mtime whenever S_db)
performs no catalog and no disk write: the world is returned unchanged,
so repeated runs leave the catalog and both trees as they are. -/
theorem runPipeline_fixedPoint_noop (w : World) (p : RPath)
    (hfp : FixedPoint w p) : RunPipelineM w p = .ok w := by
  rcases hE : gatherState w p with ⟨entry, sv, st⟩
  have h1 : st.ADisk = st.ADb := by have := hfp.1; rw [hE] at this; exact this
  have h2 : st.SDisk = st.SDb := by have := hfp.2.1; rw [hE] at this; exact this
  have h3 : st.Selected = st.SDisk := by
    have := hfp.2.2.1; rw [hE] at this; exact this
  have h4 : st.ADirty = false := by have := hfp.2.2.2.1; rw [hE] at this; exact this
  have h5 : st.SDirty = false := by have := hfp.2.2.2.2; rw [hE] at this; exact this
  have hentry : (lookupDBW w.cat p).1 = entry := congrArg (fun x => x.1) hE
  have hsv : (lookupDBW w.cat p).2 = sv := congrArg (fun x => x.2.1) hE
  have hst : ComputeStateM (lookupDBW w.cat p).1 (lookupDBW w.cat p).2
      ((statT w.archives p).map (fun n => n.mtime))
      ((statT w.spaces p).map (fun n => n.mtime)) = st :=
    congrArg (fun x => x.2.2) hE
  have hADb : st.ADb = entry.isSome := by rw [← hst, ← hentry]; rfl
  have hstage0 : stage0 w p = .ok w := by
    rw [stage0, hE]
    show (if (!st.ADisk) = true then p0M w entry sv p st else Except.ok w)
      = Except.ok w
    cases hA : st.ADisk with
    | false =>
      have hb : entry.isSome = false := by rw [← hADb, ← h1]; exact hA
      have hen : entry = none := by
        rcases entry with _ | e
        · rfl
        · simp at hb
      have hsn : sv = none := by
        rw [← hsv]; exact lookupDBW_none (hentry.trans hen)
      have hSd : st.SDisk = false := by
        rw [← h3, ← hst, hentry, hen]; rfl
      rw [if_pos (by decide), hen, hsn, p0M.eq_def, if_neg (by simp [hSd])]
    | true => rw [if_neg (by decide)]
  have hstage1 : stage1 w p = .ok w := by
    have hguard : (!st.ADb && st.ADisk) = false := by
      rw [h1]; cases hb : st.ADb <;> rfl
    rw [stage1, hE]
    show (if (!st.ADb && st.ADisk) = true then p1M w p st else Except.ok w)
      = Except.ok w
    rw [if_neg (by simp [hguard])]
  have hstage2 : stage2 w p = .ok w := by
    have hguard : (st.ADirty || st.SDirty) = false := by simp [h4, h5]
    rw [stage2, hE]
    rcases entry with _ | e
    · show (if (st.ADirty || st.SDirty) = true then Except.error PErr.dbLookup
        else Except.ok w) = Except.ok w
      rw [if_neg (by simp [hguard])]
    · show (if (st.ADirty || st.SDirty) = true then p2M w e sv p st
        else Except.ok w) = Except.ok w
      rw [if_neg (by simp [hguard])]
  have hstage3 : stage3 w p = .ok w := by
    rw [stage3, hE]
    rcases entry with _ | e
    · rfl
    · have hq : st.Selected = e.selected := by rw [← hst, hentry]; rfl
      have hsel : e.selected = st.SDisk := by rw [← hq]; exact h3
      show (if (e.selected != st.SDisk) = true then p3M w e p st
        else Except.ok w) = Except.ok w
      rw [if_neg (by simp [hsel])]
  have hstage4 : stage4 w p = .ok w := by
    have hguard : (st.SDb != st.SDisk) = false := by
      rw [h2]; exact bne_self_eq_false _
    rw [stage4, hE]
    show (if (st.SDb != st.SDisk) = true then p4M w entry sv p st
      else Except.ok w) = Except.ok w
    rw [if_neg (by simp [hguard])]
  simp only [RunPipelineM, hstage0, hstage1, hstage2, hstage3, hstage4, pseq_ok]

/-- A concrete world already at the fixed point: one selected, synced
file `r.txt` with matching mtimes on both trees, its entry and view. -/
def c3world : World :=
  ⟨[(["r.txt".toList], ⟨false, [1, 2], 5, 100⟩)],
   [(["r.txt".toList], ⟨false, [1, 2], 5, 200⟩)],
   ⟨[⟨100, 0, "r.txt".toList, "text".toList, some 2, 5, true⟩], [⟨100, 5, 9⟩]⟩,
   [], 300, 9⟩

/-- Witness for `runPipeline_fixedPoint_noop` at `c3world`. -/
theorem runPipeline_fixedPoint_noop_witness :
    RunPipelineM c3world ["r.txt".toList] = .ok c3world :=
  runPipeline_fixedPoint_noop c3world ["r.txt".toList] (by decide)

/-! ### P1 registration (claim C9) -/

/-- The Entry that `p1` inserts when registering a root-level path
`[base]` whose Archives stat is `n`: parent is the virtual root `0`, the
type comes from `ClassifyType`, and `selected` is the freshly observed
`S_disk` (`sel`). -/
def seedEntry (n : DNode) (base : List Char) (sel : Bool) : Entry :=
  ⟨n.ino, 0, base,
   if n.isDir then dirT else ClassifyTypeM base false,
   if n.isDir then none else some ((n.bytes.length : Int)),
   n.mtime, sel⟩

/-- The world after P1's UpsertEntry appended `seedEntry` to a catalog
that had no row for the path. -/
def seedWorld (w : World) (n : DNode) (base : List Char) (sel : Bool) : World :=
  { w with cat := ⟨w.cat.entries ++ [seedEntry n base sel], w.cat.views⟩ }

theorem stage0_noop (w : World) (p : RPath) (entry : Option Entry)
    (sv : Option SpacesView) (st : State)
    (hG : gatherState w p = (entry, sv, st)) (hA : st.ADisk = true) :
    stage0 w p = .ok w := by
  rw [stage0, hG]
  show (if (!st.ADisk) = true then p0M w entry sv p st else Except.ok w)
    = Except.ok w
  rw [if_neg (by simp [hA])]

theorem stage2_noop (w : World) (p : RPath) (e : Entry)
    (sv : Option SpacesView) (st : State)
    (hG : gatherState w p = (some e, sv, st))
    (hA : st.ADirty = false) (hS : st.SDirty = false) :
    stage2 w p = .ok w := by
  rw [stage2, hG]
  show (if (st.ADirty || st.SDirty) = true then p2M w e sv p st
    else Except.ok w) = Except.ok w
  rw [if_neg (by simp [hA, hS])]

theorem stage3_noop (w : World) (p : RPath) (e : Entry)
    (sv : Option SpacesView) (st : State)
    (hG : gatherState w p = (some e, sv, st))
    (h : e.selected = st.SDisk) :
    stage3 w p = .ok w := by
  rw [stage3, hG]
  show (if (e.selected != st.SDisk) = true then p3M w e p st
    else Except.ok w) = Except.ok w
  rw [if_neg (by simp [h])]

theorem stage4_noop (w : World) (p : RPath) (entry : Option Entry)
    (sv : Option SpacesView) (st : State)
    (hG : gatherState w p = (entry, sv, st)) (h : st.SDb = st.SDisk) :
    stage4 w p = .ok w := by
  rw [stage4, hG]
  show (if (st.SDb != st.SDisk) = true then p4M w entry sv p st
    else Except.ok w) = Except.ok w
  rw [if_neg (by simp [h])]

/-- C9: when P1 registers a root-level path that exists on Archives disk
(stat `n`) but has no catalog row (and its inode is fresh), the pipeline
succeeds, neither disk tree changes (in particular no Spaces copy is
created), and the catalog gains exactly the seeded entry whose
`selected` equals `S_disk` — the existence of a Spaces twin at the same
relative path. -/
theorem p1_selected_matches_sdisk (w : World) (base : List Char) (n : DNode)
    (hstatA : statT w.archives [base] = some n)
    (hnokey : getEntryByPath w.cat 0 base = none)
    (hfreshE : ∀ r ∈ w.cat.entries, r.inode ≠ n.ino)
    (hfreshV : ∀ v ∈ w.cat.views, v.entryIno ≠ n.ino) :
    ∃ w', RunPipelineM w [base] = .ok w' ∧
      w'.archives = w.archives ∧ w'.spaces = w.spaces ∧
      getEntryByPath w'.cat 0 base
        = some (seedEntry n base (statT w.spaces [base]).isSome) := by
  have hlook : lookupFrom w.cat 0 [base] = none := by rw [lookupFrom, hnokey]
  have hDB : lookupDBW w.cat [base] = (none, none) := by rw [lookupDBW, hlook]
  have hn0 : w.cat.entries.find?
      (fun e => e.parentIno == 0 && e.name == base) = none := hnokey
  have hup : ∀ sel : Bool, Store.UpsertEntry w.cat (seedEntry n base sel)
      = ⟨w.cat.entries ++ [seedEntry n base sel], w.cat.views⟩ := by
    intro sel
    have hcl : upsertCleanup w.cat (seedEntry n base sel) = w.cat :=
      upsertCleanup_noStale _ _ (fun r hr hrino => absurd hrino (hfreshE r hr))
    have hf : w.cat.entries.find? (fun r =>
        r.parentIno == (seedEntry n base sel).parentIno &&
        r.name == (seedEntry n base sel).name) = none := hnokey
    rw [Store.UpsertEntry, hcl, upsertInsert.eq_def, hf]
  have hgep1 : ∀ sel : Bool,
      getEntryByPath (seedWorld w n base sel).cat 0 base
        = some (seedEntry n base sel) := by
    intro sel
    show (w.cat.entries ++ [seedEntry n base sel]).find?
        (fun e => e.parentIno == 0 && e.name == base)
      = some (seedEntry n base sel)
    rw [List.find?_append, hn0]
    simp [seedEntry]
  have hsv1 : ∀ sel : Bool,
      getSpacesView (seedWorld w n base sel).cat (seedEntry n base sel).inode
        = none := by
    intro sel
    refine List.find?_eq_none.mpr ?_
    intro v hv
    simpa [seedEntry] using hfreshV v hv
  have hlook1 : ∀ sel : Bool,
      lookupFrom (seedWorld w n base sel).cat 0 [base]
        = some (seedEntry n base sel) := by
    intro sel
    rw [lookupFrom, hgep1 sel]
    rfl
  have hDB1 : ∀ sel : Bool, lookupDBW (seedWorld w n base sel).cat [base]
      = (some (seedEntry n base sel), none) := by
    intro sel
    rw [lookupDBW, hlook1 sel]
    show (some (seedEntry n base sel),
      getSpacesView (seedWorld w n base sel).cat (seedEntry n base sel).inode)
      = (some (seedEntry n base sel), none)
    rw [hsv1 sel]
  have harch : ∀ sel : Bool,
      statT (seedWorld w n base sel).archives [base] = some n := fun _ => hstatA
  rcases hsd : statT w.spaces [base] with _ | spNode
  · have hsdW : ∀ sel : Bool,
        statT (seedWorld w n base sel).spaces [base] = none := fun _ => hsd
    have hG : gatherState w [base] = (none, none,
        ComputeStateM none none (some n.mtime) none) := by
      rw [gatherState, hDB, hstatA, hsd]
      rfl
    have hs0 : stage0 w [base] = .ok w :=
      stage0_noop w [base] none none _ hG rfl
    have hs1 : stage1 w [base] = .ok (seedWorld w n base false) := by
      rw [stage1, hG]
      show p1M w [base] (ComputeStateM none none (some n.mtime) none)
        = Except.ok (seedWorld w n base false)
      rw [p1M.eq_def, hstatA]
      show Except.ok { w with cat := Store.UpsertEntry w.cat (seedEntry n base false) }
        = Except.ok (seedWorld w n base false)
      rw [hup false]
      rfl
    have hG1 : gatherState (seedWorld w n base false) [base]
        = (some (seedEntry n base false), none,
          ComputeStateM (some (seedEntry n base false)) none (some n.mtime) none) := by
      rw [gatherState, hDB1 false, harch false, hsdW false]
      rfl
    have hs2 : stage2 (seedWorld w n base false) [base]
        = .ok (seedWorld w n base false) :=
      stage2_noop _ _ _ _ _ hG1
        (by show decide (n.mtime ≠ n.mtime) = false; simp) rfl
    have hs3 : stage3 (seedWorld w n base false) [base]
        = .ok (seedWorld w n base false) :=
      stage3_noop _ _ _ _ _ hG1 rfl
    have hs4 : stage4 (seedWorld w n base false) [base]
        = .ok (seedWorld w n base false) :=
      stage4_noop _ _ _ _ _ hG1 rfl
    refine ⟨seedWorld w n base false, ?_, rfl, rfl, ?_⟩
    · simp only [RunPipelineM, hs0, pseq_ok, hs1, hs2, hs3, hs4]
    · exact hgep1 false
  · have hsdW : ∀ sel : Bool,
        statT (seedWorld w n base sel).spaces [base] = some spNode := fun _ => hsd
    have hG : gatherState w [base] = (none, none,
        ComputeStateM none none (some n.mtime) (some spNode.mtime)) := by
      rw [gatherState, hDB, hstatA, hsd]
      rfl
    have hs0 : stage0 w [base] = .ok w :=
      stage0_noop w [base] none none _ hG rfl
    have hs1 : stage1 w [base] = .ok (seedWorld w n base true) := by
      rw [stage1, hG]
      show p1M w [base] (ComputeStateM none none (some n.mtime) (some spNode.mtime))
        = Except.ok (seedWorld w n base true)
      rw [p1M.eq_def, hstatA]
      show Except.ok { w with cat := Store.UpsertEntry w.cat (seedEntry n base true) }
        = Except.ok (seedWorld w n base true)
      rw [hup true]
      rfl
    have hG1 : gatherState (seedWorld w n base true) [base]
        = (some (seedEntry n base true), none,
          ComputeStateM (some (seedEntry n base true)) none (some n.mtime)
            (some spNode.mtime)) := by
      rw [gatherState, hDB1 true, harch true, hsdW true]
      rfl
    have hs2 : stage2 (seedWorld w n base true) [base]
        = .ok (seedWorld w n base true) :=
      stage2_noop _ _ _ _ _ hG1
        (by show decide (n.mtime ≠ n.mtime) = false; simp) rfl
    have hs3 : stage3 (seedWorld w n base true) [base]
        = .ok (seedWorld w n base true) :=
      stage3_noop _ _ _ _ _ hG1 rfl
    have hs4 : stage4 (seedWorld w n base true) [base]
        = .ok { seedWorld w n base true with
          cat := Store.UpsertSpacesView (seedWorld w n base true).cat
            ⟨n.ino, spNode.mtime, w.now⟩ } := by
      rw [stage4, hG1]
      show p4M (seedWorld w n base true) (some (seedEntry n base true)) none [base]
          (ComputeStateM (some (seedEntry n base true)) none (some n.mtime)
            (some spNode.mtime))
        = Except.ok { seedWorld w n base true with
          cat := Store.UpsertSpacesView (seedWorld w n base true).cat
            ⟨n.ino, spNode.mtime, w.now⟩ }
      rw [p4M.eq_def, hsdW true]
      rfl
    refine ⟨{ seedWorld w n base true with
      cat := Store.UpsertSpacesView (seedWorld w n base true).cat
        ⟨n.ino, spNode.mtime, w.now⟩ }, ?_, rfl, rfl, ?_⟩
    · simp only [RunPipelineM, hs0, pseq_ok, hs1, hs2, hs3, hs4]
    · show getEntryByPath (Store.UpsertSpacesView (seedWorld w n base true).cat
          ⟨n.ino, spNode.mtime, w.now⟩) 0 base = some (seedEntry n base true)
      rw [getEntryByPath, upsertSpacesView_entries]
      exact hgep1 true

/-! ### Conflict resolution (claim C4) -/

theorem conflictSearch_spec (occupied : List (List Char)) (name : List Char) :
    ∀ fuel start idx cand,
      conflictSearch occupied name start fuel = some (idx, cand) →
      start ≤ idx ∧ cand = conflictCandidate name idx ∧
        occupied.contains cand = false ∧
        ∀ j, start ≤ j → j < idx →
          occupied.contains (conflictCandidate name j) = true := by
  intro fuel
  induction fuel with
  | zero =>
    intro start idx cand h
    exact absurd h (by simp [conflictSearch])
  | succ fuel ih =>
    intro start idx cand h
    simp only [conflictSearch] at h
    by_cases hc : occupied.contains (conflictCandidate name start) = true
    · rw [if_pos hc] at h
      obtain ⟨h1, h2, h3, h4⟩ := ih (start + 1) idx cand h
      refine ⟨by omega, h2, h3, ?_⟩
      intro j hj1 hj2
      rcases Nat.eq_or_lt_of_le hj1 with heq | hlt
      · rw [← heq]; exact hc
      · exact h4 j hlt hj2
    · rw [if_neg hc] at h
      simp only [Option.some.injEq, Prod.mk.injEq] at h
      obtain ⟨rfl, rfl⟩ := h
      refine ⟨Nat.le_refl _, rfl, Bool.eq_false_iff.mpr hc, ?_⟩
      intro j hj1 hj2
      exact absurd (Nat.lt_of_le_of_lt hj1 hj2) (Nat.lt_irrefl _)

theorem extOf_length_le (name : List Char) : (extOf name).length ≤ name.length := by
  induction name with
  | nil => simp [extOf]
  | cons c rest ih =>
    simp only [extOf]
    split
    · split
      · simp
      · simp
    · simp only [List.length_cons]
      omega

theorem conflictCandidate_length (name : List Char) (i : Nat) :
    (conflictCandidate name i).length
      = name.length + 10 + (Nat.toDigits 10 i).length := by
  have h := extOf_length_le name
  rw [conflictCandidate, stemOf]
  simp only [List.length_append, List.length_take]
  rw [Nat.min_eq_left (Nat.sub_le _ _)]
  have h10 : conflictFragment.length = 10 := by decide
  rw [h10]
  omega

theorem conflictCandidate_ne (name : List Char) (i : Nat) :
    conflictCandidate name i ≠ name := by
  intro hc
  have h := congrArg List.length hc
  rw [conflictCandidate_length] at h
  omega

theorem find?_treeRemove_ne (t : Tree) (k q : RPath) (h : q ≠ k) :
    (treeRemove t k).find? (fun x => x.1 == q)
      = t.find? (fun x => x.1 == q) := by
  induction t with
  | nil => rfl
  | cons x rest ih =>
    rw [treeRemove, List.filter_cons]
    by_cases hx : x.1 = k
    · rw [if_neg (by simp [hx])]
      simp only [List.find?_cons]
      have hxq : (x.1 == q) = false := by
        simp only [hx]
        exact beq_eq_false_iff_ne.mpr (fun hh => h hh.symm)
      rw [hxq]
      exact ih
    · rw [if_pos (by simp [hx])]
      simp only [List.find?_cons]
      cases hq : (x.1 == q) with
      | false => exact ih
      | true => rfl

theorem statT_treeRemove_ne (t : Tree) (k q : RPath) (h : q ≠ k) :
    statT (treeRemove t k) q = statT t q := by
  rw [statT, statT, find?_treeRemove_ne t k q h]

theorem statT_treeInsert_self (t : Tree) (k : RPath) (n : DNode) :
    statT (treeInsert t k n) k = some n := by
  rw [statT, treeInsert, List.find?_append]
  have h1 : (treeRemove t k).find? (fun x => x.1 == k) = none := by
    refine List.find?_eq_none.mpr ?_
    intro x hx
    have hpx := List.of_mem_filter hx
    simpa using hpx
  rw [h1]
  simp

theorem statT_treeInsert_ne (t : Tree) (k q : RPath) (n : DNode) (h : q ≠ k) :
    statT (treeInsert t k n) q = statT t q := by
  rw [statT, statT, treeInsert, List.find?_append, find?_treeRemove_ne t k q h]
  cases hf : t.find? (fun x => x.1 == q) with
  | none => simp [Ne.symm h]
  | some x => simp

theorem statT_none_of_not_occupied (t : Tree) (dir : RPath) (nm : List Char)
    (h : (occupiedNames t dir).contains nm = false) :
    statT t (dir ++ [nm]) = none := by
  rw [statT]
  cases hf : t.find? (fun x => x.1 == dir ++ [nm]) with
  | none => rfl
  | some x =>
    exfalso
    have hmem := List.mem_of_find?_eq_some hf
    have hx1 : x.1 = dir ++ [nm] := by simpa using List.find?_some hf
    have hmm : nm ∈ occupiedNames t dir := by
      rw [occupiedNames]
      refine List.mem_map.mpr ⟨x, List.mem_filter.mpr ⟨hmem, ?_⟩, ?_⟩
      · simp [hx1]
      · rw [hx1]
        exact List.getLastD_concat ..
    have hct : (occupiedNames t dir).contains nm = true := by simpa using hmm
    rw [h] at hct
    exact Bool.noConfusion hct

/-- C4: the conflict branch of `p2` (both dirty bits set, SpacesView
present, both stats succeed on a file).  The Archives tree gains exactly
one new file: the conflict name `<stem>_conflict-<N><ext>` for the
smallest free `N ≥ 1`, holding the pre-conflict Archives node; the
original name now holds the pre-conflict Spaces bytes under a fresh
inode; the old catalog row is renamed to the conflict name; a new row
holds the original name with the same parent and type and
`selected = true`; and the new inode's SpacesView carries the current
Spaces mtime. -/
theorem p2_conflict_resolution (w : World) (entry : Entry) (v : SpacesView)
    (p : RPath) (st : State) (aNode sNode : DNode) (nIdx : Nat) (cName : List Char)
    (hA : st.ADirty = true) (hS : st.SDirty = true) (hp : p ≠ [])
    (hstatA : statT w.archives p = some aNode)
    (hstatS : statT w.spaces p = some sNode) (hsdir : sNode.isDir = false)
    (hCN : ConflictName (occupiedNames w.archives p.dropLast) (p.getLastD [])
      = some (nIdx, cName))
    (hgetE : getEntry w.cat entry.inode = some entry)
    (hname : entry.name = p.getLastD [])
    (hkey : ∀ r ∈ w.cat.entries, r.parentIno = entry.parentIno →
      r.name = entry.name → r.inode = entry.inode)
    (hfreshIno : ∀ r ∈ w.cat.entries, r.inode ≠ w.nextIno)
    (hfreshV : ∀ vv ∈ w.cat.views, vv.entryIno ≠ w.nextIno) :
    ∃ w', p2M w entry (some v) p st = .ok w' ∧
      (cName = conflictCandidate (p.getLastD []) nIdx ∧ 1 ≤ nIdx ∧
        (occupiedNames w.archives p.dropLast).contains cName = false ∧
        ∀ j, 1 ≤ j → j < nIdx →
          (occupiedNames w.archives p.dropLast).contains
            (conflictCandidate (p.getLastD []) j) = true) ∧
      statT w.archives (p.dropLast ++ [cName]) = none ∧
      statT w'.archives (p.dropLast ++ [cName]) = some aNode ∧
      statT w'.archives p = some ⟨false, sNode.bytes, sNode.mtime, w.nextIno⟩ ∧
      (∀ q, q ≠ p → q ≠ p.dropLast ++ [cName] →
        statT w'.archives q = statT w.archives q) ∧
      w'.spaces = w.spaces ∧
      getEntry w'.cat entry.inode = some { entry with name := cName } ∧
      getEntryByPath w'.cat entry.parentIno entry.name
        = some ⟨w.nextIno, entry.parentIno, entry.name, entry.type,
            some ((sNode.bytes.length : Int)), sNode.mtime, true⟩ ∧
      getSpacesView w'.cat w.nextIno = some ⟨w.nextIno, sNode.mtime, w.now⟩ := by
  obtain ⟨dir, b, rfl⟩ : ∃ q c, p = q ++ [c] :=
    ⟨p.dropLast, p.getLast hp, (List.dropLast_append_getLast hp).symm⟩
  have hdl : (dir ++ [b]).dropLast = dir := List.dropLast_concat
  have hgl : (dir ++ [b]).getLastD ([] : List Char) = b := List.getLastD_concat ..
  rw [hdl, hgl] at hCN
  rw [hgl] at hname
  simp only [List.dropLast_concat, List.getLastD_concat]
  obtain ⟨h1le, hcand, hfree, hmin⟩ :=
    conflictSearch_spec (occupiedNames w.archives dir) b
      ((occupiedNames w.archives dir).length + 1) 1 nIdx cName hCN
  have hcb : cName ≠ b := by rw [hcand]; exact conflictCandidate_ne b nIdx
  have hcne : cName ≠ entry.name := by rw [hname]; exact hcb
  have hpne : (dir ++ [cName] : RPath) ≠ dir ++ [b] := by
    intro hc
    exact hcb (by simpa using hc)
  have hds : diskSafeCopy w.spaces
      (treeInsert (treeRemove w.archives (dir ++ [b])) (dir ++ [cName]) aNode)
      (dir ++ [b]) w.nextIno
      = some (treeInsert
          (treeInsert (treeRemove w.archives (dir ++ [b])) (dir ++ [cName]) aNode)
          (dir ++ [b]) ⟨false, sNode.bytes, sNode.mtime, w.nextIno⟩) := by
    simp only [diskSafeCopy, hstatS, hsdir, Bool.false_eq_true, if_false]
  have hrun : p2M w entry (some v) (dir ++ [b]) st = .ok { w with
      archives := treeInsert
        (treeInsert (treeRemove w.archives (dir ++ [b])) (dir ++ [cName]) aNode)
        (dir ++ [b]) ⟨false, sNode.bytes, sNode.mtime, w.nextIno⟩
      nextIno := w.nextIno + 1
      cat := Store.UpsertSpacesView (Store.UpsertEntry
        (Store.UpdateEntryName w.cat entry.inode cName)
        ⟨w.nextIno, entry.parentIno, entry.name, entry.type,
         some ((sNode.bytes.length : Int)), sNode.mtime, true⟩)
        ⟨w.nextIno, sNode.mtime, w.now⟩ } := by
    simp only [p2M.eq_def, hA, hS, Bool.and_self, eq_self_iff_true, if_true,
      List.dropLast_concat, List.getLastD_concat, hCN, hstatA, hds,
      statT_treeInsert_self, hstatS]
  have hinoF : ∀ e : Entry,
      (if (e.inode == entry.inode) = true then { e with name := cName } else e).inode
        = e.inode := by
    intro e
    split <;> rfl
  have hclean : upsertCleanup (Store.UpdateEntryName w.cat entry.inode cName)
      ⟨w.nextIno, entry.parentIno, entry.name, entry.type,
       some ((sNode.bytes.length : Int)), sNode.mtime, true⟩
      = Store.UpdateEntryName w.cat entry.inode cName := by
    refine upsertCleanup_noStale _ _ ?_
    intro r hr hri
    have hr' : r ∈ w.cat.entries.map (fun e =>
        if (e.inode == entry.inode) = true then { e with name := cName } else e) := hr
    obtain ⟨r0, hr0, rfl⟩ := List.mem_map.mp hr'
    rw [hinoF r0] at hri
    exact absurd hri (hfreshIno r0 hr0)
  have hfk : (w.cat.entries.map (fun e =>
      if (e.inode == entry.inode) = true then { e with name := cName } else e)).find?
      (fun r => r.parentIno == entry.parentIno && r.name == entry.name) = none := by
    refine List.find?_eq_none.mpr ?_
    intro r hr
    obtain ⟨r0, hr0, rfl⟩ := List.mem_map.mp hr
    intro hpred
    by_cases hio : (r0.inode == entry.inode) = true
    · rw [if_pos hio] at hpred
      obtain ⟨hp1, hp2⟩ : r0.parentIno = entry.parentIno ∧ cName = entry.name := by
        simpa using hpred
      exact hcne hp2
    · rw [if_neg hio] at hpred
      obtain ⟨hp1, hp2⟩ : r0.parentIno = entry.parentIno ∧ r0.name = entry.name := by
        simpa using hpred
      exact (by simpa using hio : ¬(r0.inode = entry.inode)) (hkey r0 hr0 hp1 hp2)
  have hUE : Store.UpsertEntry (Store.UpdateEntryName w.cat entry.inode cName)
      ⟨w.nextIno, entry.parentIno, entry.name, entry.type,
       some ((sNode.bytes.length : Int)), sNode.mtime, true⟩
      = ⟨(Store.UpdateEntryName w.cat entry.inode cName).entries ++
          [⟨w.nextIno, entry.parentIno, entry.name, entry.type,
            some ((sNode.bytes.length : Int)), sNode.mtime, true⟩],
         w.cat.views⟩ := by
    rw [Store.UpsertEntry, hclean, upsertInsert.eq_def]
    have hfk' : (Store.UpdateEntryName w.cat entry.inode cName).entries.find?
        (fun r => r.parentIno ==
            (⟨w.nextIno, entry.parentIno, entry.name, entry.type,
              some ((sNode.bytes.length : Int)), sNode.mtime, true⟩ : Entry).parentIno
          && r.name ==
            (⟨w.nextIno, entry.parentIno, entry.name, entry.type,
              some ((sNode.bytes.length : Int)), sNode.mtime, true⟩ : Entry).name)
        = none := hfk
    rw [hfk']
    rfl
  have hgetE' : w.cat.entries.find? (fun r => r.inode == entry.inode)
      = some entry := hgetE
  have hents : (Store.UpsertSpacesView (Store.UpsertEntry
      (Store.UpdateEntryName w.cat entry.inode cName)
      ⟨w.nextIno, entry.parentIno, entry.name, entry.type,
       some ((sNode.bytes.length : Int)), sNode.mtime, true⟩)
      ⟨w.nextIno, sNode.mtime, w.now⟩).entries
      = (Store.UpdateEntryName w.cat entry.inode cName).entries ++
        [⟨w.nextIno, entry.parentIno, entry.name, entry.type,
          some ((sNode.bytes.length : Int)), sNode.mtime, true⟩] := by
    rw [upsertSpacesView_entries, hUE]
  have hcomp : ((fun r : Entry => r.inode == entry.inode) ∘ (fun e =>
      if (e.inode == entry.inode) = true then { e with name := cName } else e))
      = (fun r : Entry => r.inode == entry.inode) := by
    funext e
    simp only [Function.comp_apply]
    rw [hinoF e]
  have hmapped : (Store.UpdateEntryName w.cat entry.inode cName).entries.find?
      (fun r => r.inode == entry.inode) = some { entry with name := cName } := by
    show (w.cat.entries.map (fun e =>
        if (e.inode == entry.inode) = true then { e with name := cName } else e)).find?
        (fun r => r.inode == entry.inode) = some { entry with name := cName }
    rw [List.find?_map, hcomp, hgetE']
    simp
  have hfv : (Store.UpsertEntry (Store.UpdateEntryName w.cat entry.inode cName)
      ⟨w.nextIno, entry.parentIno, entry.name, entry.type,
       some ((sNode.bytes.length : Int)), sNode.mtime, true⟩).views.find?
      (fun vv => vv.entryIno == w.nextIno) = none := by
    rw [hUE]
    exact List.find?_eq_none.mpr (fun vv hv => by simpa using hfreshV vv hv)
  refine ⟨{ w with
      archives := treeInsert
        (treeInsert (treeRemove w.archives (dir ++ [b])) (dir ++ [cName]) aNode)
        (dir ++ [b]) ⟨false, sNode.bytes, sNode.mtime, w.nextIno⟩
      nextIno := w.nextIno + 1
      cat := Store.UpsertSpacesView (Store.UpsertEntry
        (Store.UpdateEntryName w.cat entry.inode cName)
        ⟨w.nextIno, entry.parentIno, entry.name, entry.type,
         some ((sNode.bytes.length : Int)), sNode.mtime, true⟩)
        ⟨w.nextIno, sNode.mtime, w.now⟩ },
    hrun, ⟨hcand, h1le, hfree, hmin⟩, ?_, ?_, ?_, ?_, rfl, ?_, ?_, ?_⟩
  · exact statT_none_of_not_occupied w.archives dir cName hfree
  · show statT (treeInsert
        (treeInsert (treeRemove w.archives (dir ++ [b])) (dir ++ [cName]) aNode)
        (dir ++ [b]) ⟨false, sNode.bytes, sNode.mtime, w.nextIno⟩)
      (dir ++ [cName]) = some aNode
    rw [statT_treeInsert_ne _ _ _ _ hpne, statT_treeInsert_self]
  · exact statT_treeInsert_self ..
  · intro q hq hqc
    show statT (treeInsert
        (treeInsert (treeRemove w.archives (dir ++ [b])) (dir ++ [cName]) aNode)
        (dir ++ [b]) ⟨false, sNode.bytes, sNode.mtime, w.nextIno⟩) q
      = statT w.archives q
    rw [statT_treeInsert_ne _ _ _ _ hq, statT_treeInsert_ne _ _ _ _ hqc,
      statT_treeRemove_ne _ _ _ hq]
  · show (Store.UpsertSpacesView (Store.UpsertEntry
        (Store.UpdateEntryName w.cat entry.inode cName)
        ⟨w.nextIno, entry.parentIno, entry.name, entry.type,
         some ((sNode.bytes.length : Int)), sNode.mtime, true⟩)
        ⟨w.nextIno, sNode.mtime, w.now⟩).entries.find?
        (fun r => r.inode == entry.inode) = some { entry with name := cName }
    rw [hents, List.find?_append, hmapped]
    rfl
  · show (Store.UpsertSpacesView (Store.UpsertEntry
        (Store.UpdateEntryName w.cat entry.inode cName)
        ⟨w.nextIno, entry.parentIno, entry.name, entry.type,
         some ((sNode.bytes.length : Int)), sNode.mtime, true⟩)
        ⟨w.nextIno, sNode.mtime, w.now⟩).entries.find?
        (fun e => e.parentIno == entry.parentIno && e.name == entry.name)
      = some ⟨w.nextIno, entry.parentIno, entry.name, entry.type,
          some ((sNode.bytes.length : Int)), sNode.mtime, true⟩
    rw [hents, List.find?_append]
    have hfk'' : (Store.UpdateEntryName w.cat entry.inode cName).entries.find?
        (fun e => e.parentIno == entry.parentIno && e.name == entry.name)
        = none := hfk
    rw [hfk'']
    simp
  · show (Store.UpsertSpacesView (Store.UpsertEntry
        (Store.UpdateEntryName w.cat entry.inode cName)
        ⟨w.nextIno, entry.parentIno, entry.name, entry.type,
         some ((sNode.bytes.length : Int)), sNode.mtime, true⟩)
        ⟨w.nextIno, sNode.mtime, w.now⟩).views.find?
        (fun vv => vv.entryIno == w.nextIno)
      = some ⟨w.nextIno, sNode.mtime, w.now⟩
    rw [upsertSpacesView_views_new _ _ hfv, hUE]
    show (w.cat.views ++ [(⟨w.nextIno, sNode.mtime, w.now⟩ : SpacesView)]).find?
        (fun vv => vv.entryIno == w.nextIno)
      = some (⟨w.nextIno, sNode.mtime, w.now⟩ : SpacesView)
    have hfv0 : w.cat.views.find? (fun vv => vv.entryIno == w.nextIno) = none :=
      List.find?_eq_none.mpr (fun vv hv => by simpa using hfreshV vv hv)
    rw [List.find?_append, hfv0]
    simp

/-- The conflict scenario of C4: `f.txt` exists on both trees with
diverged bytes and mtimes, one catalog row (inode 10, selected) and its
view (synced_mtime 5 matching neither side). -/
def c4world : World :=
  ⟨[(["f.txt".toList], ⟨false, [1], 1, 10⟩)],
   [(["f.txt".toList], ⟨false, [2, 2], 7, 20⟩)],
   ⟨[⟨10, 0, "f.txt".toList, "text".toList, some 1, 1, true⟩], [⟨10, 5, 8⟩]⟩,
   [], 100, 9⟩

/-- Witness for `p2_conflict_resolution`: resolving `f.txt` creates
`f_conflict-1.txt` with the Archives bytes, puts the Spaces bytes under
`f.txt` with fresh inode 100, renames row 10, inserts the selected row
100 and gives it a view at the Spaces mtime 7. -/
theorem p2_conflict_resolution_witness :
    ∃ w', p2M c4world ⟨10, 0, "f.txt".toList, "text".toList, some 1, 1, true⟩
        (some ⟨10, 5, 8⟩) ["f.txt".toList] ⟨true, true, true, true, true, true, true⟩
      = .ok w' ∧
      ("f_conflict-1.txt".toList = conflictCandidate "f.txt".toList 1 ∧ 1 ≤ 1 ∧
        (occupiedNames c4world.archives []).contains "f_conflict-1.txt".toList
          = false ∧
        ∀ j, 1 ≤ j → j < 1 →
          (occupiedNames c4world.archives []).contains
            (conflictCandidate "f.txt".toList j) = true) ∧
      statT c4world.archives ["f_conflict-1.txt".toList] = none ∧
      statT w'.archives ["f_conflict-1.txt".toList] = some ⟨false, [1], 1, 10⟩ ∧
      statT w'.archives ["f.txt".toList] = some ⟨false, [2, 2], 7, 100⟩ ∧
      (∀ q, q ≠ ["f.txt".toList] → q ≠ ["f_conflict-1.txt".toList] →
        statT w'.archives q = statT c4world.archives q) ∧
      w'.spaces = c4world.spaces ∧
      getEntry w'.cat 10
        = some ⟨10, 0, "f_conflict-1.txt".toList, "text".toList, some 1, 1, true⟩ ∧
      getEntryByPath w'.cat 0 "f.txt".toList
        = some ⟨100, 0, "f.txt".toList, "text".toList, some 2, 7, true⟩ ∧
      getSpacesView w'.cat 100 = some ⟨100, 7, 9⟩ :=
  p2_conflict_resolution c4world
    ⟨10, 0, "f.txt".toList, "text".toList, some 1, 1, true⟩ ⟨10, 5, 8⟩
    ["f.txt".toList] ⟨true, true, true, true, true, true, true⟩
    ⟨false, [1], 1, 10⟩ ⟨false, [2, 2], 7, 20⟩ 1 "f_conflict-1.txt".toList
    rfl rfl (by decide) (by decide) (by decide) rfl (by decide) (by decide)
    (by decide) (by decide) (by decide) (by decide)

/-- The seeding scenario of C9: an Archives-only file `a.txt`, empty
catalog, empty Spaces. -/
def c9world : World :=
  ⟨[(["a.txt".toList], ⟨false, [7], 3, 50⟩)], [], ⟨[], []⟩, [], 100, 9⟩

/-- Witness for `p1_selected_matches_sdisk`: seeding the Archives-only
file registers it with `selected = false` and Spaces stays empty. -/
theorem p1_selected_matches_sdisk_witness :
    ∃ w', RunPipelineM c9world ["a.txt".toList] = .ok w' ∧
      w'.archives = c9world.archives ∧ w'.spaces = c9world.spaces ∧
      getEntryByPath w'.cat 0 "a.txt".toList
        = some (seedEntry ⟨false, [7], 3, 50⟩ "a.txt".toList
            (statT c9world.spaces ["a.txt".toList]).isSome) :=
  p1_selected_matches_sdisk c9world "a.txt".toList ⟨false, [7], 3, 50⟩
    (by decide) (by decide) (by decide) (by decide)

/-- Witness for `rollback_amended`: on the counterexample catalog the
flip propagates to the direct child `c.txt`. -/
theorem rollback_amended_witness :
    { (⟨11, 10, "c.txt".toList, "text".toList, some 2, 1, false⟩ : Entry) with
        selected := (some (7 : Int)).isSome } ∈
      (rollbackState c7pre (some 7) 9 ["d".toList]).entries :=
  ((rollback_amended c7pre (some 7) 9 ["d".toList]
      ⟨10, 0, "d".toList, "dir".toList, none, 1, false⟩
      (by decide) (by decide)).2.2.1
    (by decide) ⟨11, 10, "c.txt".toList, "text".toList, some 2, 1, false⟩
    (by decide) (by decide))

end SelectiveFB
